import Mathlib

/-!
# Verification of the camel-snake-pep8 rename-refactoring engine

This file gives a shallow embedding, in Lean 4, of the pure core of the
`camel_snake_pep8.py` refactoring tool: the name-style converters
(`camel_to_snake`, `snake_to_camel`), the placeholder mangling and restoring
functions, the proposed-change filtering stage of `rope_iterate_worder`, the
conversion-collision detection of `rope_rename_refactor`, the
parameter-list parsing (`get_function_param_names` / `process_param`),
the user-response interpretation, and the command-line argument processing
(`parse_args`), together with theorems about them.

Python strings are modelled as Lean `String`/`List Char`; the ASCII
character classes used by the source's regexes (`[A-Z]`, `[a-z]`, `[0-9]`,
`str.isupper`, `str.lower`) are modelled on character codes.  Effectful code
(the global placeholder counter, the file system calls in `parse_args`) is
modelled by explicit state passing and an explicit environment record.
-/

namespace CamelSnakePep8

/-! ## Character classes (ASCII model of the Python predicates) -/

/-- Model of the regex class `[A-Z]` and of `str.isupper` on ASCII text. -/
def pyIsUpper (c : Char) : Bool := 65 ≤ c.toNat && c.toNat ≤ 90

/-- Model of the regex class `[a-z]` on ASCII text. -/
def pyIsLower (c : Char) : Bool := 97 ≤ c.toNat && c.toNat ≤ 122

/-- Model of the regex class `[0-9]` and of `\d` on ASCII text. -/
def pyIsDigit (c : Char) : Bool := 48 ≤ c.toNat && c.toNat ≤ 57

/-- Model of `str.lower` applied to a single ASCII character. -/
def pyToLower (c : Char) : Char :=
  if pyIsUpper c then Char.ofNat (c.toNat + 32) else c

/-- Model of `str.upper` applied to a single ASCII character. -/
def pyToUpper (c : Char) : Char :=
  if pyIsLower c then Char.ofNat (c.toNat - 32) else c

/-! ## The name-style converters (source: `camel_to_snake`, `snake_to_camel`)

`camel_to_snake` applies two regex substitution passes and lowercases:

  first_cap_re = re.compile(r"(.)([A-Z][a-z]+)")   -- sub r"\1_\2"
  all_cap_re   = re.compile(r"([a-z0-9])([A-Z])")  -- sub r"\1_\2"

`re.sub` scans left to right, replacing each leftmost non-overlapping match
and continuing after the end of the match; `[a-z]+` is greedy.  The functions
below implement exactly that scan for the two fixed patterns.
-/

/-- One `re.sub` pass for the pattern `(.)([A-Z][a-z]+)` with replacement
putting an underscore between the two groups.  The dot does not match a
newline; the `[a-z]+` run is greedy and the scan resumes after the match. -/
def subFirstCap : List Char → List Char
  | [] => []
  | [c] => [c]
  | c1 :: c2 :: rest =>
      if c1 ≠ '\n' ∧ pyIsUpper c2 ∧ (rest.head?.any pyIsLower) then
        c1 :: '_' :: c2 :: (rest.takeWhile pyIsLower ++ subFirstCap (rest.dropWhile pyIsLower))
      else
        c1 :: subFirstCap (c2 :: rest)
termination_by l => l.length
decreasing_by
  · simp only [List.length_cons]
    have h := (List.dropWhile_suffix (l := rest) pyIsLower).length_le
    omega
  · simp only [List.length_cons]
    omega

/-- One `re.sub` pass for the pattern `([a-z0-9])([A-Z])` with replacement
putting an underscore between the two groups. -/
def subAllCap : List Char → List Char
  | [] => []
  | [c] => [c]
  | c1 :: c2 :: rest =>
      if (pyIsLower c1 || pyIsDigit c1) ∧ pyIsUpper c2 then
        c1 :: '_' :: c2 :: subAllCap rest
      else
        c1 :: subAllCap (c2 :: rest)
termination_by l => l.length

/-- Source `camel_to_snake`: convert a possibly camel-case string to snake
case.  Anything consisting only of capitals and underscores is left
unmodified (it might be a constant); otherwise the two regex passes run and
the result is lowercased. -/
def camel_to_snake (name : String) : String :=
  if name.data.all (fun c => pyIsUpper c || c == '_') then name
  else String.mk ((subAllCap (subFirstCap name.data)).map pyToLower)

/-- Model of Python `"s".split("_")`: split at every underscore, keeping
empty segments. -/
def pySplitUnderscore : List Char → List (List Char)
  | [] => [[]]
  | c :: rest =>
      if c = '_' then [] :: pySplitUnderscore rest
      else
        match pySplitUnderscore rest with
        | [] => [[c]]
        | w :: ws => (c :: w) :: ws

/-- Model of Python `str.capitalize`: first character uppercased, all
remaining characters lowercased. -/
def pyCapitalize : List Char → List Char
  | [] => []
  | c :: rest => pyToUpper c :: rest.map pyToLower

/-- Source `snake_to_camel`: convert snake case names to camel case with the
first word capitalized.  Preserves one leading underscore if present.  On the
empty string the source raises `IndexError`; the model returns `""` there
(the scanner never calls it with an empty name). -/
def snake_to_camel (name : String) : String :=
  match name.data with
  | [] => ""
  | c :: rest =>
      let leading_underscore := c = '_'
      let name1 : List Char := pyToUpper c :: rest
      let words := pySplitUnderscore name1
      if words.length = 1 ∨ (words.length = 2 ∧ leading_underscore) then
        String.mk name1
      else
        let cap_words := words.map pyCapitalize
        let joined_name := cap_words.flatten
        String.mk (if leading_underscore then '_' :: joined_name else joined_name)

/-! ## Character-arithmetic lemmas -/

theorem toNat_ofNat_valid (n : Nat) (h : n < 55296) : (Char.ofNat n).toNat = n := by
  have hv : n.isValidChar := Or.inl h
  rw [Char.ofNat, dif_pos hv]
  simp [Char.toNat, Char.ofNatAux, UInt32.toNat, BitVec.toNat_ofNatLt]

theorem pyIsLower_toNat {c : Char} (h : pyIsLower c = true) :
    97 ≤ c.toNat ∧ c.toNat ≤ 122 := by
  simpa [pyIsLower] using h

theorem pyIsUpper_toNat {c : Char} (h : pyIsUpper c = true) :
    65 ≤ c.toNat ∧ c.toNat ≤ 90 := by
  simpa [pyIsUpper] using h

/-- An uppercased lowercase letter is an uppercase letter. -/
theorem pyIsUpper_pyToUpper {c : Char} (h : pyIsLower c = true) :
    pyIsUpper (pyToUpper c) = true := by
  obtain ⟨h1, h2⟩ := pyIsLower_toNat h
  rw [pyToUpper, if_pos h]
  have htn : (Char.ofNat (c.toNat - 32)).toNat = c.toNat - 32 :=
    toNat_ofNat_valid _ (by omega)
  simp [pyIsUpper, htn]; omega

/-- Lowercasing undoes uppercasing on lowercase letters. -/
theorem pyToLower_pyToUpper (c : Char) (h : pyIsLower c = true) :
    pyToLower (pyToUpper c) = c := by
  obtain ⟨h1, h2⟩ := pyIsLower_toNat h
  have hup : pyToUpper c = Char.ofNat (c.toNat - 32) := by rw [pyToUpper, if_pos h]
  have htn : (Char.ofNat (c.toNat - 32)).toNat = c.toNat - 32 :=
    toNat_ofNat_valid _ (by omega)
  have hupper : pyIsUpper (Char.ofNat (c.toNat - 32)) = true := by
    simp [pyIsUpper, htn]; omega
  rw [hup, pyToLower, if_pos hupper, htn]
  have : c.toNat - 32 + 32 = c.toNat := by omega
  rw [this, Char.ofNat_toNat]

/-- The result of `pyToLower` is never an uppercase letter. -/
theorem pyIsUpper_pyToLower (c : Char) : pyIsUpper (pyToLower c) = false := by
  rw [pyToLower]
  split
  · next h =>
    obtain ⟨h1, h2⟩ := pyIsUpper_toNat h
    have htn : (Char.ofNat (c.toNat + 32)).toNat = c.toNat + 32 :=
      toNat_ofNat_valid _ (by omega)
    simp [pyIsUpper, htn]; omega
  · next h => simpa using h

theorem pyToLower_eq_self {c : Char} (h : pyIsUpper c = false) : pyToLower c = c := by
  rw [pyToLower, if_neg]; simp [h]

theorem pyToUpper_eq_self {c : Char} (h : pyIsLower c = false) : pyToUpper c = c := by
  rw [pyToUpper, if_neg]; simp [h]

theorem not_pyIsUpper_of_pyIsLower {c : Char} (h : pyIsLower c = true) :
    pyIsUpper c = false := by
  obtain ⟨h1, h2⟩ := pyIsLower_toNat h
  simp [pyIsUpper]; omega

theorem not_pyIsUpper_of_pyIsDigit {c : Char} (h : pyIsDigit c = true) :
    pyIsUpper c = false := by
  simp only [pyIsDigit, Bool.and_eq_true, decide_eq_true_eq] at h
  simp [pyIsUpper]; omega

/-! ## Behavior of the regex passes on uppercase-free text -/

/-- Pattern `(.)([A-Z][a-z]+)` never matches in text without uppercase. -/
theorem list_map_eq_self {α : Type} {l : List α} {f : α → α} (h : ∀ c ∈ l, f c = c) :
    l.map f = l := by
  induction l with
  | nil => rfl
  | cons a l ih => simp_all

theorem subFirstCap_id : ∀ (l : List Char), (∀ c ∈ l, pyIsUpper c = false) →
    subFirstCap l = l
  | [], _ => by rw [subFirstCap]
  | [c], _ => by rw [subFirstCap]
  | c1 :: c2 :: rest, h => by
      have h2 : pyIsUpper c2 = false := h c2 (by simp)
      rw [subFirstCap, if_neg (by simp [h2])]
      have := subFirstCap_id (c2 :: rest) (fun c hc => h c (List.mem_cons_of_mem _ hc))
      rw [this]
termination_by l => l.length

/-- Pattern `([a-z0-9])([A-Z])` never matches in text without uppercase. -/
theorem subAllCap_id : ∀ (l : List Char), (∀ c ∈ l, pyIsUpper c = false) →
    subAllCap l = l
  | [], _ => by rw [subAllCap]
  | [c], _ => by rw [subAllCap]
  | c1 :: c2 :: rest, h => by
      have h2 : pyIsUpper c2 = false := h c2 (by simp)
      rw [subAllCap, if_neg (by simp [h2])]
      have := subAllCap_id (c2 :: rest) (fun c hc => h c (List.mem_cons_of_mem _ hc))
      rw [this]
termination_by l => l.length

/-- C7 helper: in the non-constant branch every output character has been
lowercased, hence is not uppercase. -/
theorem camel_to_snake_no_upper_of_not_const (n : String)
    (h : n.data.all (fun c => pyIsUpper c || c == '_') = false) :
    ∀ c ∈ (camel_to_snake n).data, pyIsUpper c = false := by
  rw [camel_to_snake, if_neg (by simp [h])]
  intro c hc
  simp only [String.data] at hc
  obtain ⟨d, _, rfl⟩ := List.mem_map.mp hc
  exact pyIsUpper_pyToLower d

/-- C10: `camel_to_snake` is idempotent. -/
theorem camel_to_snake_idempotent (n : String) :
    camel_to_snake (camel_to_snake n) = camel_to_snake n := by
  by_cases h : (camel_to_snake n).data.all (fun c => pyIsUpper c || c == '_') = true
  · rw [camel_to_snake, if_pos h]
  · have hnoup : ∀ c ∈ (camel_to_snake n).data, pyIsUpper c = false := by
      by_cases h0 : n.data.all (fun c => pyIsUpper c || c == '_') = true
      · exfalso
        apply h
        rw [camel_to_snake, if_pos h0]
        exact h0
      · exact camel_to_snake_no_upper_of_not_const n (by simpa using h0)
    rw [camel_to_snake, if_neg (by simpa using h)]
    rw [subFirstCap_id _ hnoup, subAllCap_id _ hnoup]
    have : (camel_to_snake n).data.map pyToLower = (camel_to_snake n).data :=
      list_map_eq_self (fun c hc => pyToLower_eq_self (hnoup c hc))
    rw [this]

/-! ## Placeholder mangling (source: `create_rejected_change_preserve_name`,
`restore_text`, module constant `REJECTED_CHANGE_MAGIC_COOKIE`) -/

def REJECTED_CHANGE_MAGIC_COOKIE : String := "_XxX_CamelSnakePep8_PreserveName_XxX_"

/-- Decimal digit character for a value below ten. -/
def digitChar10 : Nat → Char
  | 0 => '0' | 1 => '1' | 2 => '2' | 3 => '3' | 4 => '4'
  | 5 => '5' | 6 => '6' | 7 => '7' | 8 => '8' | 9 => '9'
  | _ => '*'

/-- Decimal digit list of a natural number, most significant first. -/
def natDigits (n : Nat) : List Char :=
  if n < 10 then [digitChar10 n]
  else natDigits (n / 10) ++ [digitChar10 (n % 10)]
termination_by n
decreasing_by exact Nat.div_lt_self (by omega) (by omega)

/-- Model of Python `str` applied to a nonnegative integer. -/
def pyStr (n : Nat) : String := String.mk (natDigits n)

/-- Source `create_rejected_change_preserve_name`, with the process-global
counter `change_reject_counter` modelled by explicit state passing: the
counter is incremented, then the incremented value is appended after the
magic cookie.  Returns the mangled name and the new counter value. -/
def create_rejected_change_preserve_name (name : String)
    (change_reject_counter : Nat) : String × Nat :=
  let c := change_reject_counter + 1
  (name ++ REJECTED_CHANGE_MAGIC_COOKIE ++ pyStr c, c)

/-- One `re.sub` pass for the pattern `COOKIE\d+` with empty replacement:
at each position, if the cookie is a prefix and at least one digit follows
it, remove the cookie and the greedy digit run and continue after the match;
otherwise keep the character and move on. -/
def restoreAux : List Char → List Char
  | [] => []
  | c :: rest =>
      if REJECTED_CHANGE_MAGIC_COOKIE.data.isPrefixOf (c :: rest) ∧
         (((c :: rest).drop REJECTED_CHANGE_MAGIC_COOKIE.data.length).head?.any pyIsDigit) then
        restoreAux (((c :: rest).drop REJECTED_CHANGE_MAGIC_COOKIE.data.length).dropWhile pyIsDigit)
      else
        c :: restoreAux rest
termination_by l => l.length
decreasing_by
  · have h := (List.dropWhile_suffix (l := (c :: rest).drop REJECTED_CHANGE_MAGIC_COOKIE.data.length) pyIsDigit).length_le
    simp only [List.length_drop, List.length_cons] at h ⊢
    have : REJECTED_CHANGE_MAGIC_COOKIE.data.length = 37 := by decide
    omega
  · simp

/-- Source `restore_text`: remove every match of the cookie followed by one
or more digits. -/
def restore_text (text : String) : String :=
  String.mk (restoreAux text.data)

/-! ## The change-filtering stage of `rope_iterate_worder` -/

/-- A possible change `[word, offset, new_name]` collected by the scanner. -/
abbrev Change := String × Nat × String

/-- Model of the Python substring test `sub in s`. -/
def containsSublist (sub : List Char) : List Char → Bool
  | [] => sub.isEmpty
  | c :: rest => sub.isPrefixOf (c :: rest) || containsSublist sub rest

def uniqueEverseenAux {α : Type} [DecidableEq α] (seen : List α) : List α → List α
  | [] => []
  | x :: xs =>
      if x ∈ seen then uniqueEverseenAux seen xs
      else x :: uniqueEverseenAux (x :: seen) xs

/-- Source `unique_everseen` with `key=None`: list unique elements,
preserving order, remembering all elements ever seen. -/
def unique_everseen {α : Type} [DecidableEq α] (l : List α) : List α :=
  uniqueEverseenAux [] l

/-- The pure filtering stage of `rope_iterate_worder` (source lines
624-641), applied to the collected `possible_changes` in non-`unfiltered`
mode: drop changes whose name contains the magic cookie, drop changes whose
new name equals the old name, then remove duplicates keeping the first
occurrence of each triple. -/
def rope_iterate_worder_filter (possible_changes : List Change) : List Change :=
  let filtered_changes := possible_changes.filter
    (fun c => !(containsSublist REJECTED_CHANGE_MAGIC_COOKIE.data c.1.data) &&
              c.2.2 != c.1)
  unique_everseen filtered_changes

/-! ## Conversion-collision detection in `rope_rename_refactor` -/

/-- The collision scan of `rope_rename_refactor` (source lines 726-732) for
one changed resource: for every previously accepted change
`(accepted_name, accepted_new_name)` recorded for that resource, if the
proposed `new_name` equals `accepted_new_name` while `accepted_name` differs
from the proposed original `name`, the triple
`[resource_name, accepted_name, accepted_new_name]` is collected; a nonempty
collection raises the conversion-collision warning. -/
def conversion_collisions_for (accepted_changes : List (String × String))
    (resource_name : String) (name new_name : String) :
    List (String × String × String) :=
  (accepted_changes.filter (fun p => p.2 == new_name && p.1 != name)).map
    (fun p => (resource_name, p.1, p.2))

/-! ## User-response interpretation in `rope_rename_refactor` -/

/-- Python whitespace for `str.strip`. -/
def pyIsSpace (c : Char) : Bool :=
  c == ' ' || c == '\t' || c == '\n' || c == '\r' || c.toNat == 11 || c.toNat == 12

/-- Model of Python `str.strip()`. -/
def pyStrip (l : List Char) : List Char :=
  ((l.dropWhile pyIsSpace).reverse.dropWhile pyIsSpace).reverse

/-- The four possible outcomes of one user decision. -/
inductive Decision : Type where
  | accept : Decision
  | reject : Decision
  | change_name : Decision
  | toggle_docs : Decision
deriving DecidableEq

/-- The user-response normalization and dispatch of `rope_rename_refactor`
(source lines 770-807): the reply is stripped; an empty reply, or one that
is not a contiguous substring of `"dcyYnN"`, is replaced by the default
(`"n"` when a warning fired, else `"y"`); then `"c"` asks for an alternate
name, `"d"` toggles the docs flag, a substring of `"yY"` accepts, and
anything else rejects (with the placeholder rename). -/
def interpret_response (response : String) (warning : Bool) : Decision :=
  let yes_no := String.mk (pyStrip response.data)
  let yes_no :=
    if yes_no.data = [] ∨ containsSublist yes_no.data "dcyYnN".data = false then
      if warning then "n" else "y"
    else yes_no
  if yes_no = "c" then Decision.change_name
  else if yes_no = "d" then Decision.toggle_docs
  else if containsSublist yes_no.data "yY".data = true then Decision.accept
  else Decision.reject

/-! ## Decimal-representation lemmas for the placeholder counter -/

/-- Decimal re-evaluation of a digit list, used to invert `natDigits`. -/
def decValAux (acc : Nat) : List Char → Nat
  | [] => acc
  | c :: rest => decValAux (acc * 10 + (c.toNat - 48)) rest

theorem decValAux_nil (acc : Nat) : decValAux acc [] = acc := rfl

theorem decValAux_cons (acc : Nat) (c : Char) (l : List Char) :
    decValAux acc (c :: l) = decValAux (acc * 10 + (c.toNat - 48)) l := rfl

theorem decValAux_append (l1 l2 : List Char) : ∀ acc,
    decValAux acc (l1 ++ l2) = decValAux (decValAux acc l1) l2 := by
  induction l1 with
  | nil => intro acc; rfl
  | cons a l ih =>
      intro acc
      rw [List.cons_append, decValAux_cons, decValAux_cons]
      exact ih _

theorem digitChar10_val : ∀ d, d < 10 → (digitChar10 d).toNat - 48 = d := by decide

theorem pyIsDigit_digitChar10 : ∀ d, d < 10 → pyIsDigit (digitChar10 d) = true := by
  decide

theorem decValAux_natDigits (n : Nat) : ∀ acc, decValAux acc (natDigits n) =
    acc * 10 ^ (natDigits n).length + n := by
  induction n using Nat.strong_induction_on with
  | _ n ih =>
    intro acc
    by_cases h : n < 10
    · rw [natDigits, if_pos h]
      rw [decValAux_cons, decValAux_nil, digitChar10_val n h]
      simp
    · rw [natDigits, if_neg h]
      rw [decValAux_append]
      have hd : n / 10 < n := Nat.div_lt_self (by omega) (by omega)
      rw [ih _ hd]
      have hmod : (digitChar10 (n % 10)).toNat - 48 = n % 10 :=
        digitChar10_val _ (Nat.mod_lt _ (by omega))
      rw [decValAux_cons, decValAux_nil, hmod, List.length_append]
      have h10 : n / 10 * 10 + n % 10 = n := by omega
      calc (acc * 10 ^ (natDigits (n / 10)).length + n / 10) * 10 + n % 10
          = acc * (10 ^ (natDigits (n / 10)).length * 10) +
              (n / 10 * 10 + n % 10) := by ring
        _ = acc * 10 ^ ((natDigits (n / 10)).length + [digitChar10 (n % 10)].length) + n := by
              rw [h10]
              norm_num [pow_succ]

theorem natDigits_inj {a b : Nat} (h : natDigits a = natDigits b) : a = b := by
  have ha := decValAux_natDigits a 0
  have hb := decValAux_natDigits b 0
  rw [h] at ha
  omega

theorem natDigits_all_digit (n : Nat) : ∀ c ∈ natDigits n, pyIsDigit c = true := by
  induction n using Nat.strong_induction_on with
  | _ n ih =>
    by_cases h : n < 10
    · rw [natDigits, if_pos h]
      intro c hc
      rw [List.mem_singleton] at hc
      subst hc
      exact pyIsDigit_digitChar10 n h
    · rw [natDigits, if_neg h]
      intro c hc
      rcases List.mem_append.mp hc with hc | hc
      · exact ih _ (Nat.div_lt_self (by omega) (by omega)) c hc
      · rw [List.mem_singleton] at hc
        subst hc
        exact pyIsDigit_digitChar10 _ (Nat.mod_lt _ (by omega))

theorem natDigits_ne_nil (n : Nat) : natDigits n ≠ [] := by
  rw [natDigits]; split <;> simp

/-- C6: the placeholder counter strictly increases on every call to
`create_rejected_change_preserve_name`, and any two calls made at distinct
counter states return textually distinct placeholder names, even for the
same (or any) original names. -/
theorem create_rejected_change_counter_spec :
    (∀ (name : String) (ctr : Nat),
        ctr < (create_rejected_change_preserve_name name ctr).2) ∧
    (∀ (n1 n2 : String) (c1 c2 : Nat), c1 ≠ c2 →
        (create_rejected_change_preserve_name n1 c1).1 ≠
        (create_rejected_change_preserve_name n2 c2).1) := by
  constructor
  · intro name ctr
    simp [create_rejected_change_preserve_name]
  · intro n1 n2 c1 c2 hne heq
    apply hne
    have hdata : n1.data ++ REJECTED_CHANGE_MAGIC_COOKIE.data ++ natDigits (c1 + 1) =
        n2.data ++ REJECTED_CHANGE_MAGIC_COOKIE.data ++ natDigits (c2 + 1) :=
      congrArg String.data heq
    have key : ∀ (x : List Char) (m : Nat),
        ((x ++ REJECTED_CHANGE_MAGIC_COOKIE.data ++ natDigits m).reverse.takeWhile
          pyIsDigit).reverse = natDigits m := by
      intro x m
      rw [List.reverse_append, List.reverse_append]
      rw [List.takeWhile_append_of_pos (by
        intro a ha
        rw [List.mem_reverse] at ha
        exact natDigits_all_digit m a ha)]
      have hcookie : REJECTED_CHANGE_MAGIC_COOKIE.data.reverse =
          '_' :: REJECTED_CHANGE_MAGIC_COOKIE.data.reverse.tail := by decide
      rw [hcookie, List.cons_append, List.takeWhile_cons_of_neg (by decide)]
      simp
    have h1 := key n1.data (c1 + 1)
    have h2 := key n2.data (c2 + 1)
    rw [hdata, h2] at h1
    have := natDigits_inj h1
    omega

/-- C6 witness: a concrete pair of successive calls with the same name. -/
theorem create_rejected_change_counter_spec_witness :
    0 < (create_rejected_change_preserve_name "myVar" 0).2 ∧
    (create_rejected_change_preserve_name "myVar" 0).1 ≠
      (create_rejected_change_preserve_name "myVar" 1).1 :=
  ⟨create_rejected_change_counter_spec.1 "myVar" 0,
   create_rejected_change_counter_spec.2 "myVar" "myVar" 0 1 (by decide)⟩

/-! ## Theorems about the change-filtering stage (claim C3) -/

/-- Specification-side deduplication, written from the spec's words ("yields
it exactly once, preserving first-seen order relative to other distinct
proposals"): scan left to right and append each element the first time it is
seen, so the output lists the distinct elements in order of first
occurrence.  To be compared with the source-side `unique_everseen`. -/
def firstSeenDedup {α : Type} [DecidableEq α] (l : List α) : List α :=
  l.foldl (fun acc x => if x ∈ acc then acc else acc ++ [x]) []

theorem foldl_uniqueEverseenAux {α : Type} [DecidableEq α] :
    ∀ (l acc seen : List α), (∀ x, x ∈ acc ↔ x ∈ seen) →
    List.foldl (fun acc x => if x ∈ acc then acc else acc ++ [x]) acc l =
      acc ++ uniqueEverseenAux seen l
  | [], acc, seen, _ => by simp [uniqueEverseenAux]
  | x :: xs, acc, seen, h => by
      rw [List.foldl_cons, uniqueEverseenAux]
      by_cases hx : x ∈ seen
      · rw [if_pos hx, if_pos ((h x).mpr hx)]
        exact foldl_uniqueEverseenAux xs acc seen h
      · rw [if_neg hx, if_neg (fun hc => hx ((h x).mp hc))]
        rw [foldl_uniqueEverseenAux xs (acc ++ [x]) (x :: seen) (by
          intro y
          rw [List.mem_append, List.mem_singleton, List.mem_cons, h y]
          tauto)]
        simp

/-- The source's `unique_everseen` computes exactly the first-seen
deduplication described by the spec. -/
theorem unique_everseen_eq_firstSeenDedup {α : Type} [DecidableEq α] (l : List α) :
    unique_everseen l = firstSeenDedup l := by
  rw [unique_everseen, firstSeenDedup,
    foldl_uniqueEverseenAux l [] [] (fun x => Iff.rfl), List.nil_append]

theorem uniqueEverseenAux_mem {α : Type} [DecidableEq α] (l : List α) :
    ∀ (seen : List α) (x : α), x ∈ uniqueEverseenAux seen l ↔ x ∈ l ∧ x ∉ seen := by
  induction l with
  | nil => intro seen x; simp [uniqueEverseenAux]
  | cons a l ih =>
      intro seen x
      by_cases ha : a ∈ seen
      · rw [uniqueEverseenAux, if_pos ha, ih]
        constructor
        · rintro ⟨h1, h2⟩
          exact ⟨List.mem_cons_of_mem _ h1, h2⟩
        · rintro ⟨h1, h2⟩
          rcases List.mem_cons.mp h1 with rfl | h1
          · exact absurd ha h2
          · exact ⟨h1, h2⟩
      · rw [uniqueEverseenAux, if_neg ha]
        simp only [List.mem_cons, ih]
        constructor
        · rintro (rfl | ⟨h1, h2⟩)
          · exact ⟨Or.inl rfl, ha⟩
          · exact ⟨Or.inr h1, fun hx => h2 (Or.inr hx)⟩
        · rintro ⟨rfl | h1, h2⟩
          · exact Or.inl rfl
          · by_cases hxa : x = a
            · exact Or.inl hxa
            · exact Or.inr ⟨h1, fun hx => hx.elim hxa h2⟩

theorem uniqueEverseenAux_nodup {α : Type} [DecidableEq α] (l : List α) :
    ∀ seen : List α, (uniqueEverseenAux seen l).Nodup := by
  induction l with
  | nil => intro seen; simp [uniqueEverseenAux]
  | cons a l ih =>
      intro seen
      rw [uniqueEverseenAux]
      split
      · exact ih seen
      · refine List.nodup_cons.mpr ⟨?_, ih (a :: seen)⟩
        rw [uniqueEverseenAux_mem]
        simp

theorem uniqueEverseenAux_sublist {α : Type} [DecidableEq α] (l : List α) :
    ∀ seen : List α, (uniqueEverseenAux seen l).Sublist l := by
  induction l with
  | nil => intro seen; simp [uniqueEverseenAux]
  | cons a l ih =>
      intro seen
      rw [uniqueEverseenAux]
      split
      · exact (ih seen).cons a
      · exact (ih (a :: seen)).cons₂ a

/-- C3: the filtered output of the scan contains no no-op change, no change
whose original name contains the placeholder marker, no duplicates, its
members are exactly the input changes passing both filters, it is a sublist
of the filtered input, and it equals the first-seen deduplication of the
filtered input — each distinct surviving triple appears exactly once, in
order of first occurrence. -/
theorem rope_iterate_worder_filter_spec (possible_changes : List Change) :
    (∀ t ∈ rope_iterate_worder_filter possible_changes, t.2.2 ≠ t.1) ∧
    (∀ t ∈ rope_iterate_worder_filter possible_changes,
        containsSublist REJECTED_CHANGE_MAGIC_COOKIE.data t.1.data = false) ∧
    (rope_iterate_worder_filter possible_changes).Nodup ∧
    (∀ t : Change, t ∈ rope_iterate_worder_filter possible_changes ↔
        t ∈ possible_changes ∧
        containsSublist REJECTED_CHANGE_MAGIC_COOKIE.data t.1.data = false ∧
        t.2.2 ≠ t.1) ∧
    (rope_iterate_worder_filter possible_changes).Sublist
      (possible_changes.filter
        (fun c => !(containsSublist REJECTED_CHANGE_MAGIC_COOKIE.data c.1.data) &&
                  c.2.2 != c.1)) ∧
    rope_iterate_worder_filter possible_changes =
      firstSeenDedup (possible_changes.filter
        (fun c => !(containsSublist REJECTED_CHANGE_MAGIC_COOKIE.data c.1.data) &&
                  c.2.2 != c.1)) := by
  have hmem : ∀ t : Change, t ∈ rope_iterate_worder_filter possible_changes ↔
      t ∈ possible_changes ∧
      containsSublist REJECTED_CHANGE_MAGIC_COOKIE.data t.1.data = false ∧
      t.2.2 ≠ t.1 := by
    intro t
    rw [rope_iterate_worder_filter, unique_everseen, uniqueEverseenAux_mem]
    simp [List.mem_filter, bne_iff_ne]
  refine ⟨fun t ht => ((hmem t).mp ht).2.2, fun t ht => ((hmem t).mp ht).2.1,
    ?_, hmem, ?_, ?_⟩
  · exact uniqueEverseenAux_nodup _ []
  · exact uniqueEverseenAux_sublist _ []
  · exact unique_everseen_eq_firstSeenDedup _

/-- C3 witness: on a concrete duplicate-and-noise input the output drops the
no-op `("ok", 9, "ok")` and keeps exactly one copy of the duplicated
change, at its first-seen position. -/
theorem rope_iterate_worder_filter_spec_witness :
    rope_iterate_worder_filter
      [("myVar", 3, "my_var"), ("ok", 9, "ok"), ("myVar", 3, "my_var")] =
      [("myVar", 3, "my_var")] := by
  rw [(rope_iterate_worder_filter_spec
    [("myVar", 3, "my_var"), ("ok", 9, "ok"), ("myVar", 3, "my_var")]).2.2.2.2.2]
  decide

/-! ## Theorems about conversion-collision detection (claim C4) -/

/-- C4: the conversion-collision warning fires exactly when the proposed new
name equals the new name of a previously accepted change for the same
affected file whose original name differs; in particular, after accepting
myVar to my_var, proposing myVAR (which also converts to my_var) fires it. -/
theorem conversion_collision_spec (accepted_changes : List (String × String))
    (resource_name name new_name : String) :
    (conversion_collisions_for accepted_changes resource_name name new_name ≠ [] ↔
      ∃ p ∈ accepted_changes, p.2 = new_name ∧ p.1 ≠ name) ∧
    conversion_collisions_for [("myVar", camel_to_snake "myVar")] resource_name
      "myVAR" (camel_to_snake "myVAR") ≠ [] := by
  constructor
  · rw [conversion_collisions_for]
    simp [List.filter_eq_nil_iff, bne_iff_ne]
  · have h1 : camel_to_snake "myVar" = "my_var" := by
      simp +decide [camel_to_snake, subFirstCap, subAllCap]
    have h2 : camel_to_snake "myVAR" = "my_var" := by
      simp +decide [camel_to_snake, subFirstCap, subAllCap]
    rw [conversion_collisions_for, h1, h2]
    simp +decide

/-- C4 witness: concrete instantiation of the collision scenario. -/
theorem conversion_collision_spec_witness :
    conversion_collisions_for [("myVar", camel_to_snake "myVar")] "mod.py"
      "myVAR" (camel_to_snake "myVAR") ≠ [] :=
  (conversion_collision_spec [] "mod.py" "x" "y").2

/-! ## Theorems about the name-style converter (claims C7, C10 above) -/

/-- C7: an identifier whose characters are all uppercase or underscores is
returned unchanged; for any other input the result contains no uppercase
letter. -/
theorem camel_to_snake_constant_exempt_else_no_upper (n : String) :
    (n.data.all (fun c => pyIsUpper c || c == '_') = true → camel_to_snake n = n) ∧
    (n.data.all (fun c => pyIsUpper c || c == '_') = false →
      (camel_to_snake n).data.all (fun c => !(pyIsUpper c)) = true) := by
  constructor
  · intro h
    rw [camel_to_snake, if_pos h]
  · intro h
    rw [List.all_eq_true]
    intro c hc
    have := camel_to_snake_no_upper_of_not_const n h c hc
    simp [this]

/-- C7 witness: a constant-style name is kept; a camel-case name is fully
lowercased. -/
theorem camel_to_snake_constant_exempt_else_no_upper_witness :
    camel_to_snake "MAX_WIDTH" = "MAX_WIDTH" ∧
    (camel_to_snake "myVar").data.all (fun c => !(pyIsUpper c)) = true :=
  ⟨(camel_to_snake_constant_exempt_else_no_upper "MAX_WIDTH").1 (by decide),
   (camel_to_snake_constant_exempt_else_no_upper "myVar").2 (by decide)⟩

/-! ## Theorems about user-response interpretation (claim C8) -/

/-- C8 counterexample: the reply "cy" is outside the alphabet
y, Y, n, N, c, d, empty, yet it is not treated as the empty reply: being a
contiguous substring of "dcyYnN" it escapes the default normalization and is
dispatched as a rejection, while the empty reply (without warning) accepts. -/
theorem interpret_response_cy_not_default :
    interpret_response "cy" false = Decision.reject ∧
    interpret_response "" false = Decision.accept ∧
    Decision.reject ≠ Decision.accept := by
  refine ⟨by decide, by decide, by decide⟩

/-- C8 amended: a reply whose stripped form is empty or is not a contiguous
substring of "dcyYnN" is treated exactly as the empty reply, and the empty
reply accepts when no collision warning fired and rejects when one did. -/
theorem interpret_response_default_spec (response : String) (warning : Bool) :
    (pyStrip response.data = [] ∨
        containsSublist (pyStrip response.data) "dcyYnN".data = false →
      interpret_response response warning = interpret_response "" warning) ∧
    (interpret_response "" warning =
      if warning then Decision.reject else Decision.accept) := by
  constructor
  · intro h
    rw [interpret_response]
    split
    · cases warning <;> decide
    · next hn => exact absurd h hn
  · cases warning <;> decide

/-- C8 witness: the out-of-alphabet reply "zz" gets the default treatment. -/
theorem interpret_response_default_spec_witness :
    interpret_response "zz" false = interpret_response "" false :=
  (interpret_response_default_spec "zz" false).1 (by decide)

/-! ## Placeholder round trip (claim C5)

A mangled text is an initial plain piece followed, for each rejected change,
by the output of `create_rejected_change_preserve_name` and a following
plain piece.  The hypotheses say that the marker pattern occurs in the text
only where the mangling inserted it: no piece contains (or completes, once
the appended cookie follows it) a cookie occurrence, and no piece starts
with a digit (a digit right after a placeholder would extend its counter,
which cannot happen when the placeholder replaces a Python identifier). -/

/-- Text with each name replaced by its placeholder. -/
def mangleItems : List (String × Nat × List Char) → List Char
  | [] => []
  | (name, ctr, piece) :: rest =>
      (create_rejected_change_preserve_name name ctr).1.data ++
        (piece ++ mangleItems rest)

/-- The same text with the original names kept. -/
def unmangleItems : List (String × Nat × List Char) → List Char
  | [] => []
  | (name, _, piece) :: rest => name.data ++ (piece ++ unmangleItems rest)

/-- The cookie occurs nowhere in `l`. -/
def cookieFree (l : List Char) : Bool :=
  (List.range l.length).all
    (fun i => !(REJECTED_CHANGE_MAGIC_COOKIE.data.isPrefixOf (l.drop i)))

/-- Appending the cookie to `l` creates no cookie occurrence before the
appended one (no straddling occurrence). -/
def cookieSafe (l : List Char) : Bool :=
  (List.range l.length).all
    (fun i => !(REJECTED_CHANGE_MAGIC_COOKIE.data.isPrefixOf
        ((l ++ REJECTED_CHANGE_MAGIC_COOKIE.data).drop i)))

/-- Well-formedness of a mangled text: see the section comment. -/
def goodItems : List Char → List (String × Nat × List Char) → Bool
  | chunk, [] => cookieFree chunk
  | chunk, (name, _, piece) :: rest =>
      cookieSafe (chunk ++ name.data) &&
      !((piece ++ mangleItems rest).head?.any pyIsDigit) &&
      goodItems piece rest

theorem restoreAux_cons_eq (c : Char) (l : List Char) :
    restoreAux (c :: l) =
      if REJECTED_CHANGE_MAGIC_COOKIE.data.isPrefixOf (c :: l) ∧
         (((c :: l).drop REJECTED_CHANGE_MAGIC_COOKIE.data.length).head?.any pyIsDigit) then
        restoreAux (((c :: l).drop REJECTED_CHANGE_MAGIC_COOKIE.data.length).dropWhile pyIsDigit)
      else
        c :: restoreAux l := by
  rw [restoreAux]

theorem isPrefixOf_append_self : ∀ (p l : List Char), p.isPrefixOf (p ++ l) = true
  | [], _ => by simp [List.isPrefixOf]
  | a :: p, l => by simp [List.isPrefixOf, isPrefixOf_append_self p l]

theorem cookieFree_tail {a : Char} {l : List Char} (h : cookieFree (a :: l) = true) :
    cookieFree l = true := by
  rw [cookieFree, List.all_eq_true] at h ⊢
  intro i hi
  rw [List.mem_range] at hi
  have := h (i + 1) (by rw [List.mem_range]; simp; omega)
  simpa using this

/-- On cookie-free text the removal pass is the identity. -/
theorem restoreAux_cookieFree : ∀ (l : List Char), cookieFree l = true →
    restoreAux l = l
  | [], _ => by rw [restoreAux]
  | a :: l, h => by
      rw [restoreAux_cons_eq, if_neg, restoreAux_cookieFree l (cookieFree_tail h)]
      intro hcon
      have h0 : REJECTED_CHANGE_MAGIC_COOKIE.data.isPrefixOf ((a :: l).drop 0) = false := by
        rw [cookieFree, List.all_eq_true] at h
        have := h 0 (by rw [List.mem_range]; simp)
        simpa using this
      rw [List.drop_zero] at h0
      rw [hcon.1] at h0
      exact Bool.true_eq_false.mp h0
termination_by l => l.length

theorem cookieSafe_tail {a : Char} {l : List Char} (h : cookieSafe (a :: l) = true) :
    cookieSafe l = true := by
  rw [cookieSafe, List.all_eq_true] at h ⊢
  intro i hi
  rw [List.mem_range] at hi
  have := h (i + 1) (by rw [List.mem_range]; simp; omega)
  simpa using this

/-- Scanning a straddle-safe chunk followed by the cookie makes no match
inside the chunk. -/
theorem restoreAux_safe_chunk : ∀ (c : List Char), cookieSafe c = true →
    ∀ (z : List Char),
    restoreAux (c ++ (REJECTED_CHANGE_MAGIC_COOKIE.data ++ z)) =
      c ++ restoreAux (REJECTED_CHANGE_MAGIC_COOKIE.data ++ z)
  | [], _, z => by simp
  | a :: c, h, z => by
      rw [List.cons_append, restoreAux_cons_eq, if_neg,
        restoreAux_safe_chunk c (cookieSafe_tail h) z]
      · rfl
      intro hcon
      have h0 : REJECTED_CHANGE_MAGIC_COOKIE.data.isPrefixOf
          (((a :: c) ++ REJECTED_CHANGE_MAGIC_COOKIE.data).drop 0) = false := by
        rw [cookieSafe, List.all_eq_true] at h
        have := h 0 (by rw [List.mem_range]; simp)
        simpa using this
      rw [List.drop_zero] at h0
      -- the prefix test only inspects the first 37 characters, which agree
      -- between `(a :: c) ++ cookie` and `(a :: c) ++ cookie ++ z`
      have h1 : REJECTED_CHANGE_MAGIC_COOKIE.data <+:
          ((a :: c) ++ REJECTED_CHANGE_MAGIC_COOKIE.data) ++ z := by
        rw [List.append_assoc]
        exact List.isPrefixOf_iff_prefix.mp hcon.1
      have hpre : REJECTED_CHANGE_MAGIC_COOKIE.data <+:
          (a :: c) ++ REJECTED_CHANGE_MAGIC_COOKIE.data :=
        List.prefix_of_prefix_length_le h1 (List.prefix_append _ _) (by simp; omega)
      have h2 := List.isPrefixOf_iff_prefix.mpr hpre
      rw [h0] at h2
      exact Bool.false_ne_true h2
termination_by c => c.length

/-- The removal pass deletes a cookie followed by its digit run. -/
theorem restoreAux_cookie_digits (m : Nat) (w : List Char)
    (hw : w.head?.any pyIsDigit = false) :
    restoreAux (REJECTED_CHANGE_MAGIC_COOKIE.data ++ (natDigits m ++ w)) =
      restoreAux w := by
  obtain ⟨d, nd, hnd⟩ : ∃ d nd, natDigits m = d :: nd := by
    rcases hh : natDigits m with _ | ⟨d, nd⟩
    · exact absurd hh (natDigits_ne_nil m)
    · exact ⟨d, nd, rfl⟩
  have hKlen : REJECTED_CHANGE_MAGIC_COOKIE.data.length = 37 := by decide
  have hdropK : (REJECTED_CHANGE_MAGIC_COOKIE.data ++ (natDigits m ++ w)).drop
      REJECTED_CHANGE_MAGIC_COOKIE.data.length = natDigits m ++ w := by
    rw [List.drop_left]
  obtain ⟨k0, kt, hk⟩ : ∃ k0 kt, REJECTED_CHANGE_MAGIC_COOKIE.data = k0 :: kt := ⟨_, _, rfl⟩
  rw [hk, List.cons_append, restoreAux_cons_eq, ← List.cons_append, ← hk, hdropK, if_pos]
  · congr 1
    rw [List.dropWhile_append_of_pos (by
        intro x hx
        exact natDigits_all_digit m x hx)]
    rcases w with _ | ⟨w0, wt⟩
    · rfl
    · rw [List.dropWhile_cons_of_neg]
      simp only [List.head?_cons, Option.any_some] at hw
      simp [hw]
  · constructor
    · rw [isPrefixOf_append_self]
    · rw [hnd]
      simp only [List.cons_append, List.head?_cons, Option.any_some]
      exact natDigits_all_digit m d (by rw [hnd]; exact List.mem_cons_self _ _)

/-- The mangled form of one item unfolds to name, cookie, digits. -/
theorem mangleItems_cons (name : String) (ctr : Nat) (piece : List Char)
    (rest : List (String × Nat × List Char)) :
    mangleItems ((name, ctr, piece) :: rest) =
      (name.data ++ (REJECTED_CHANGE_MAGIC_COOKIE.data ++
        (natDigits (ctr + 1) ++ (piece ++ mangleItems rest)))) := by
  show (name ++ REJECTED_CHANGE_MAGIC_COOKIE ++ pyStr (ctr + 1)).data ++
      (piece ++ mangleItems rest) = _
  show (name.data ++ REJECTED_CHANGE_MAGIC_COOKIE.data ++ natDigits (ctr + 1)) ++
      (piece ++ mangleItems rest) = _
  simp [List.append_assoc]

/-- Main C5 lemma: the removal pass recovers the unmangled text. -/
theorem restoreAux_mangled : ∀ (items : List (String × Nat × List Char))
    (chunk : List Char), goodItems chunk items = true →
    restoreAux (chunk ++ mangleItems items) = chunk ++ unmangleItems items
  | [], chunk, h => by
      rw [mangleItems, unmangleItems, List.append_nil]
      exact restoreAux_cookieFree chunk (by rw [goodItems] at h; exact h)
  | (name, ctr, piece) :: rest, chunk, h => by
      rw [goodItems, Bool.and_eq_true, Bool.and_eq_true] at h
      obtain ⟨⟨hsafe, hdig⟩, hrest⟩ := h
      rw [mangleItems_cons, unmangleItems]
      rw [show chunk ++ (name.data ++ (REJECTED_CHANGE_MAGIC_COOKIE.data ++
            (natDigits (ctr + 1) ++ (piece ++ mangleItems rest)))) =
          (chunk ++ name.data) ++ (REJECTED_CHANGE_MAGIC_COOKIE.data ++
            (natDigits (ctr + 1) ++ (piece ++ mangleItems rest)))
        by simp [List.append_assoc]]
      rw [restoreAux_safe_chunk (chunk ++ name.data) hsafe]
      rw [restoreAux_cookie_digits (ctr + 1) (piece ++ mangleItems rest)
        (by simpa using hdig)]
      rw [restoreAux_mangled rest piece hrest]
      simp [List.append_assoc]

/-- C5: for a text containing `N ≥ 0` names mangled by
`create_rejected_change_preserve_name` (with arbitrary counter states), and
in which the marker pattern occurs only at the inserted placeholders,
`restore_text` returns exactly the original text: every cookie-plus-digits
substring is removed and every original name prefix is kept. -/
theorem restore_text_round_trip (p0 : List Char)
    (items : List (String × Nat × List Char)) (h : goodItems p0 items = true) :
    restore_text (String.mk (p0 ++ mangleItems items)) =
      String.mk (p0 ++ unmangleItems items) := by
  rw [restore_text]
  show String.mk (restoreAux (p0 ++ mangleItems items)) = _
  rw [restoreAux_mangled items p0 h]

/-- C5 witness: two rejected changes with distinct counters inside a small
program text. -/
theorem restore_text_round_trip_witness :
    restore_text (String.mk ("x = ".data ++
        mangleItems [("myVar", 0, " + 1\ny = ".data), ("foo", 6, "\n".data)])) =
      String.mk ("x = ".data ++
        unmangleItems [("myVar", 0, " + 1\ny = ".data), ("foo", 6, "\n".data)]) :=
  restore_text_round_trip "x = ".data
    [("myVar", 0, " + 1\ny = ".data), ("foo", 6, "\n".data)] (by decide)

/-! ## Parameter-list parsing (source: `get_function_param_names`,
`process_param`)

Python string primitives (`find`, `rfind`, slicing and indexing with
negative positions, `lstrip`/`rstrip`/`strip`) are modelled first. -/

/-- Model of Python `str.find` for one character: index of the first
occurrence or -1. -/
def pyFindChar (l : List Char) (c : Char) : Int :=
  match l.findIdx? (· == c) with
  | some i => (i : Int)
  | none => -1

/-- Model of Python `str.rfind` for one character: index of the last
occurrence or -1. -/
def pyRFindChar (l : List Char) (c : Char) : Int :=
  match l.reverse.findIdx? (· == c) with
  | some i => (l.length : Int) - 1 - (i : Int)
  | none => -1

/-- Python slice `l[:j]`, where a negative `j` counts from the end. -/
def pySliceTo (l : List Char) (j : Int) : List Char :=
  if j < 0 then l.take (l.length - min l.length j.natAbs) else l.take j.toNat

/-- Python slice `l[i:]`, where a negative `i` counts from the end. -/
def pySliceFrom (l : List Char) (i : Int) : List Char :=
  if i < 0 then l.drop (l.length - min l.length i.natAbs) else l.drop i.toNat

/-- Python `l[i]`; out-of-range access raises `IndexError`, modelled as
`none`. -/
def pyGet (l : List Char) (i : Int) : Option Char :=
  if i < 0 then
    if i.natAbs ≤ l.length then l.get? (l.length - i.natAbs) else none
  else l.get? i.toNat

/-- Python `l[i] = c` for an in-range index. -/
def pySet (l : List Char) (i : Int) (c : Char) : List Char :=
  if i < 0 then l.set (l.length - i.natAbs) c else l.set i.toNat c

/-- Model of Python `str.lstrip()`. -/
def pyLStrip (l : List Char) : List Char := l.dropWhile pyIsSpace

/-- Model of Python `str.rstrip()`. -/
def pyRStrip (l : List Char) : List Char := (l.reverse.dropWhile pyIsSpace).reverse

/-- Source `process_param`: process a single parameter segment.  Segments
with a default value (containing `=`) are ignored (Rope treats them as
assignments); a type annotation (from the first `:` on) is stripped; leading
whitespace is stripped with the offset adjusted; an empty remainder is
ignored.  The source returns `[]` or `[param, offset]`; modelled as an
`Option`. -/
def process_param (param : List Char) (offset : Nat) : Option (String × Nat) :=
  if param.contains '=' then none
  else
    let first_colon_index := pyFindChar param ':'
    let param1 := if first_colon_index ≥ 0 then pySliceTo param first_colon_index
                  else param
    let first_non_whitespace_index := param1.length - (pyLStrip param1).length
    let offset1 := offset + first_non_whitespace_index
    let param2 := pyStrip param1
    if param2 = [] then none
    else some (String.mk param2, offset1)

/-- The character-blanking loop of `get_function_param_names`: opening and
closing brackets and everything nested inside them become spaces, and every
`*` becomes a space; other top-level characters are kept. -/
def blankNestedAndStars (paren_count : Int) : List Char → List Char
  | [] => []
  | c :: rest =>
      if c = '(' ∨ c = '[' ∨ c = '{' then
        ' ' :: blankNestedAndStars (paren_count + 1) rest
      else if c = ')' ∨ c = ']' ∨ c = '}' then
        ' ' :: blankNestedAndStars (paren_count - 1) rest
      else if paren_count > 0 ∨ c = '*' then
        ' ' :: blankNestedAndStars paren_count rest
      else
        c :: blankNestedAndStars paren_count rest

/-- The comma-splitting `while` loop of `get_function_param_names`: emit
each segment strictly between consecutive commas together with its starting
index; the text after the last comma is discarded (the loop breaks when no
further comma is found).  `acc` holds the reversed current segment. -/
def commaSegsAux (acc : List Char) (segStart : Nat) : List Char →
    List (List Char × Nat)
  | [] => []
  | c :: rest =>
      if c = ',' then
        (acc.reverse, segStart) :: commaSegsAux [] (segStart + acc.length + 1) rest
      else
        commaSegsAux (c :: acc) segStart rest

/-- Source `get_function_param_names`: parse a function-and-arguments string
returned by Rope (of the form `name(...)`), yielding the parameter names
that have no default value, with their absolute offsets.  The source's
`assert` statements (name check, close-paren check, and the final
self-consistency check of every recovered name against the original string)
are modelled by returning `none` where the source would raise. -/
def get_function_param_names (initial_fun_string : String) (initial_offset : Nat)
    (fun_name_string : String) : Option (List (String × Nat)) :=
  let fun_string0 := initial_fun_string.data
  if fun_string0 = [] then some []
  else
    let index : Int := pyFindChar fun_string0 '(' + 1
    let fun_name := pySliceTo fun_string0 (index - 1)
    if fun_name ≠ fun_name_string.data then none
    else
      let fun_string1 := pyRStrip (pySliceFrom fun_string0 index)
      let offset := initial_offset + index.toNat
      let close_paren_index := pyRFindChar fun_string1 ')'
      let fun_string2 := pySliceTo fun_string1 (close_paren_index + 1)
      match pyGet fun_string2 close_paren_index with
      | none => none
      | some ch =>
        if ch ≠ ')' then none
        else
          let fun_list := pySet fun_string2 close_paren_index ','
          let simplified := blankNestedAndStars 0 fun_list
          let final_name_list := (commaSegsAux [] 0 simplified).filterMap
            (fun seg => if seg.1 = [] then none
                        else process_param seg.1 (offset + seg.2))
          if final_name_list.all (fun p =>
              (List.range p.1.length).all (fun i =>
                p.1.data.get? i == fun_string0.get? (p.2 - initial_offset + i))) then
            some final_name_list
          else none

/-- C2 counterexample: on the header string of
`def f(a, b=1, c: int, *args, **kwargs)` the parser yields the names
a, c, args and kwargs — the blanking loop turns the `*`/`**` markers into
spaces but keeps the names `args` and `kwargs`, which then parse as ordinary
parameters — so the output is not exactly the occurrences of `a` and `c`. -/
theorem get_function_param_names_keeps_variadics :
    (get_function_param_names "f(a, b=1, c: int, *args, **kwargs)" 0 "f").map
        (List.map Prod.fst) = some ["a", "c", "args", "kwargs"] ∧
    some ["a", "c", "args", "kwargs"] ≠ (some ["a", "c"] : Option (List String)) := by
  exact ⟨by decide, by decide⟩

/-- C2 amended: on the header string of
`def f(a, b=1, c: int, *args, **kwargs)` at offset 0, the parser yields
exactly the Param occurrences of `a` (offset 2), `c` (offset 10, annotation
stripped), `args` (offset 19) and `kwargs` (offset 27): the segment with a
default value (`b=1`) is dropped, the type annotation of `c` is stripped,
and the `*`/`**` markers are blanked while the names `args` and `kwargs`
are still yielded. -/
theorem get_function_param_names_f_header :
    get_function_param_names "f(a, b=1, c: int, *args, **kwargs)" 0 "f" =
      some [("a", 2), ("c", 10), ("args", 19), ("kwargs", 27)] := by decide

/-! ## Command-line argument processing (source: `parse_args`,
`glob_pathname`, `recursive_get_files`, `expand_path`)

The file-system and shell effects are supplied by an environment record. -/

/-- Environment of effects used by the argument processing: the current
directory, `expand_path` (`expandvars` of `expanduser`), `glob.glob`,
`os.path.realpath`, `os.path.isdir`, `os.path.isfile`, `os.path.exists`,
one step of `os.walk` (root, directories, files; `none` models an immediate
`StopIteration`), and the platform name. -/
structure Env : Type where
  curdir : String
  expand : String → String
  glob : String → List String
  realpath : String → String
  isdir : String → Bool
  isfile : String → Bool
  path_exists : String → Bool
  walk : String → Option (String × List String × List String)
  system_os : String

/-- Source `glob_pathname`: expand any globbing in `path`; an empty
expansion falls back to the literal path (after a warning); when
`exact_num_args` requests an exact count and the expansion count differs,
the program exits with status 1, modelled as `Except.error`. -/
def glob_pathname (env : Env) (path : String) (exact_num_args : Option Nat)
    (windows_only : Bool) : Except Unit (List String) :=
  if windows_only ∧ env.system_os ≠ "Windows" then Except.ok [path]
  else
    let globbed := env.glob path
    let globbed := if globbed = [] then [path] else globbed
    match exact_num_args with
    | some k => if globbed.length ≠ k then Except.error () else Except.ok globbed
    | none => Except.ok globbed

/-- Source `recursive_get_files`: recursive search for Python files in a
package, or at root level of a non-package.  `os.walk` comes from the
environment, `os.path.join` is modelled by `"/"` concatenation, and the
recursion depth over the (finite) directory tree is bounded by `fuel`. -/
def recursive_get_files (env : Env) : Nat → String → Bool → List String
  | 0, _, _ => []
  | fuel + 1, dirname, at_root =>
      match env.walk dirname with
      | none => []
      | some (root, dirnames, filenames) =>
          let dirnames := dirnames.map (fun d => root ++ "/" ++ d)
          let pyfiles := (filenames.filter (fun f => f.endsWith ".py")).map
            (fun f => root ++ "/" ++ f)
          let has_init_dot_py := pyfiles.any (fun s => s.endsWith "__init__.py")
          if at_root ∧ ¬has_init_dot_py then pyfiles
          else if ¬at_root ∧ ¬has_init_dot_py then []
          else pyfiles ++
            (dirnames.map (fun d => recursive_get_files env fuel d false)).flatten

/-- The module-argument expansion loop of `parse_args`: expand each name,
glob it (no exact count requested, so this never exits), and take real
paths. -/
def expand_module_paths (env : Env) : List String → List String
  | [] => []
  | fname :: rest =>
      let fname := env.expand fname
      let globbed_fnames := match glob_pathname env fname none false with
        | Except.ok g => g
        | Except.error _ => []
      globbed_fnames.map env.realpath ++ expand_module_paths env rest

/-- Source `parse_args`, modelled after the argparse front end: `dir_arg`
is the optional PROJECTDIR positional (defaulting to the current directory)
and `modules` the list of MODULE positionals (an empty list triggers the
recursive file search).  `Except.error` models `sys.exit(1)`; the success
value is `(project_dir, project_dir_realpath, fname_realpaths,
project_is_package)`. -/
def parse_args (env : Env) (fuel : Nat) (dir_arg : Option String)
    (modules : List String) : Except Unit (String × String × List String × Bool) :=
  let project_dir0 := env.expand (dir_arg.getD env.curdir)
  match glob_pathname env project_dir0 (some 1) false with
  | Except.error _ => Except.error ()
  | Except.ok globbed =>
    let project_dir := globbed.headD ""
    let project_dir_realpath := env.realpath project_dir
    if ¬ env.isdir project_dir_realpath then Except.error ()
    else
      let project_is_package := env.path_exists (project_dir ++ "/__init__.py")
      let fname_list := if modules = [] then
          recursive_get_files env fuel project_dir true
        else modules
      let fname_realpaths := expand_module_paths env fname_list
      if fname_realpaths.any (fun f => !(env.isfile f)) then Except.error ()
      else if fname_realpaths.any
          (fun f => !(pySliceFrom f.data (-3) == ".py".data)) then Except.error ()
      else Except.ok (project_dir, project_dir_realpath, fname_realpaths,
        project_is_package)

/-- A concrete environment: the current directory exists, is empty, and
every path is its own real path. -/
def envEmptyProject : Env where
  curdir := "/home/user/proj"
  expand := fun s => s
  glob := fun p => [p]
  realpath := fun s => s
  isdir := fun _ => true
  isfile := fun _ => true
  path_exists := fun _ => false
  walk := fun _ => some ("/home/user/proj", [], [])
  system_os := "Linux"

/-- C9 counterexample: with zero command-line arguments (fewer than two),
`parse_args` does not exit: the project directory defaults to the current
directory and the module list defaults to a recursive scan, so the run
proceeds with an empty file list. -/
theorem parse_args_zero_args_no_exit :
    parse_args envEmptyProject 5 none [] =
      Except.ok ("/home/user/proj", "/home/user/proj", [], false) := rfl

/-- C9 amended: the program exits with status 1 (before any refactoring)
when the glob of the root argument expands to two or more paths while
exactly one was required, when the root argument does not resolve to a
directory, or when any expanded module argument is not an existing file or
does not end in `.py`; but fewer than two command-line arguments do not by
themselves cause an exit, since both positionals are optional. -/
theorem parse_args_exit_conditions (env : Env) (fuel : Nat)
    (dir_arg : Option String) (modules : List String) :
    (2 ≤ (env.glob (env.expand (dir_arg.getD env.curdir))).length →
      parse_args env fuel dir_arg modules = Except.error ()) ∧
    (∀ pd, glob_pathname env (env.expand (dir_arg.getD env.curdir)) (some 1) false =
        Except.ok [pd] →
      env.isdir (env.realpath pd) = false →
      parse_args env fuel dir_arg modules = Except.error ()) ∧
    (∀ pd, glob_pathname env (env.expand (dir_arg.getD env.curdir)) (some 1) false =
        Except.ok [pd] →
      env.isdir (env.realpath pd) = true →
      (expand_module_paths env (if modules = [] then
          recursive_get_files env fuel pd true else modules)).any
        (fun f => !(env.isfile f) ||
          !(pySliceFrom f.data (-3) == ".py".data)) = true →
      parse_args env fuel dir_arg modules = Except.error ()) := by
  refine ⟨?_, ?_, ?_⟩
  · intro hglob
    have hne : env.glob (env.expand (dir_arg.getD env.curdir)) ≠ [] := by
      intro h
      rw [h] at hglob
      simp at hglob
    have hlen : (env.glob (env.expand (dir_arg.getD env.curdir))).length ≠ 1 := by
      omega
    have hgp : glob_pathname env (env.expand (dir_arg.getD env.curdir)) (some 1)
        false = Except.error () := by
      simp [glob_pathname, hne, hlen]
    rw [parse_args, hgp]
  · intro pd hpd hdir
    rw [parse_args, hpd]
    simp only [List.headD_cons]
    rw [if_pos (by simp [hdir])]
  · intro pd hpd hdir hany
    rw [parse_args, hpd]
    simp only [List.headD_cons]
    rw [if_neg (by simp [hdir])]
    rcases hsplit : (expand_module_paths env (if modules = [] then
        recursive_get_files env fuel pd true else modules)).any
          (fun f => !(env.isfile f)) with _ | _
    · rw [if_neg (by simp)]
      rw [if_pos]
      rw [List.any_eq_true] at hany ⊢
      obtain ⟨f, hf, hfprop⟩ := hany
      refine ⟨f, hf, ?_⟩
      rw [List.any_eq_false] at hsplit
      have hisfile := hsplit f hf
      simp only [Bool.or_eq_true] at hfprop
      rcases hfprop with h | h
      · rw [h] at hisfile
        simp at hisfile
      · exact h
    · rw [if_pos (by simp)]

/-- C9 witness for the amended exit conditions: a root that is not a
directory exits with status 1. -/
theorem parse_args_exit_conditions_witness :
    parse_args { envEmptyProject with isdir := fun _ => false } 5
      (some "/tmp/nodir") [] = Except.error () :=
  (parse_args_exit_conditions { envEmptyProject with isdir := fun _ => false } 5
      (some "/tmp/nodir") []).2.1 "/tmp/nodir" rfl rfl

/-! ## Round trip of the converters (claim C1)

The snake-form name is analyzed as its list of underscore-separated words.
`renderFrom` is the word-level specification of the first regex pass on the
concatenation of capitalized words: `avail` records whether the previous
word still offers an unconsumed last character that can serve as the first
group `(.)` of a match (it was consumed exactly when the previous junction
matched and the greedy `[a-z]+` run swallowed the rest of that word). -/

/-- An underscore-delimited word of a snake-case name: nonempty, starting
with a lowercase letter, all characters lowercase or digits. -/
def goodWord (w : List Char) : Bool :=
  !w.isEmpty && w.head?.any pyIsLower &&
    w.all (fun c => pyIsLower c || pyIsDigit c)

/-- The first regex pass can re-detect the junction before word `w` from
`w` alone exactly when the second character of `w` is a lowercase letter
(so that, capitalized, `w` starts with `[A-Z][a-z]`). -/
def typeA (w : List Char) : Bool := w.tail.head?.any pyIsLower

/-- A junction between adjacent words `w`, `w2` can be re-detected. -/
def goodPair (w w2 : List Char) : Bool := 2 ≤ w.length || typeA w2

/-- The capitalized form of a word (Python `capitalize` on an
all-lowercase-or-digit word). -/
def capWord : List Char → List Char
  | [] => []
  | c :: t => pyToUpper c :: t

/-- Concatenation of the capitalized words: the camel form of the name. -/
def camWords (ws : List (List Char)) : List Char := (ws.map capWord).flatten

/-- Word-level result of the first regex pass on `camWords`.  The junction
before `w` fires when a previous character is available and `w` is of
type A; the previous character for the NEXT junction is consumed exactly
when this junction fired and the greedy lowercase run swallowed all of
`w`'s tail. -/
def renderFrom (avail : Bool) : List (List Char) → List Char
  | [] => []
  | w :: ws =>
      (if avail && typeA w then ['_'] else []) ++ capWord w ++
        renderFrom (!(avail && typeA w && w.tail.all pyIsLower)) ws

/-- Adjacent-pair condition along a word list. -/
def chainPairs : List (List Char) → Bool
  | [] => true
  | [_] => true
  | w :: w2 :: ws => goodPair w w2 && chainPairs (w2 :: ws)

/-- The full precondition on the word list of a snake-case name: at least
one word, every word well formed, every junction re-detectable, and a lone
word of length at least two. -/
def goodSnakeWords : List (List Char) → Bool
  | [] => false
  | [w] => goodWord w && 2 ≤ w.length
  | w :: w2 :: ws => (w :: w2 :: ws).all goodWord && chainPairs (w :: w2 :: ws)

/-- The words joined back with underscores. -/
def joinU : List (List Char) → List Char
  | [] => []
  | [w] => w
  | w :: ws => w ++ '_' :: joinU ws

/-! ### Character-class helper lemmas for the round trip -/

theorem not_pyIsLower_of_pyIsUpper {c : Char} (h : pyIsUpper c = true) :
    pyIsLower c = false := by
  obtain ⟨h1, h2⟩ := pyIsUpper_toNat h
  simp [pyIsLower]; omega

theorem not_lowdig_of_pyIsUpper {c : Char} (h : pyIsUpper c = true) :
    (pyIsLower c || pyIsDigit c) = false := by
  obtain ⟨h1, h2⟩ := pyIsUpper_toNat h
  simp [pyIsLower, pyIsDigit]; omega

theorem upper_ne_newline {c : Char} (h : pyIsUpper c = true) : c ≠ '\n' := by
  intro hc
  subst hc
  exact absurd h (by decide)

theorem lowdig_ne_newline {c : Char} (h : (pyIsLower c || pyIsDigit c) = true) :
    c ≠ '\n' := by
  intro hc
  subst hc
  exact absurd h (by decide)

theorem not_pyIsUpper_of_lowdig {c : Char} (h : (pyIsLower c || pyIsDigit c) = true) :
    pyIsUpper c = false := by
  rcases Bool.or_eq_true_iff.mp h with h | h
  · exact not_pyIsUpper_of_pyIsLower h
  · exact not_pyIsUpper_of_pyIsDigit h

theorem pyToLower_capWord {w : List Char} (h : goodWord w = true) :
    (capWord w).map pyToLower = w := by
  rcases w with _ | ⟨c, t⟩
  · rfl
  · simp only [goodWord, Bool.and_eq_true, List.head?_cons, Option.any_some,
      List.all_cons] at h
    obtain ⟨⟨_, hc⟩, _, ht⟩ := h
    simp only [capWord, List.map_cons]
    rw [pyToLower_pyToUpper c hc]
    congr 1
    apply list_map_eq_self
    intro x hx
    exact pyToLower_eq_self (not_pyIsUpper_of_lowdig ((List.all_eq_true.mp ht) x hx))

theorem pyCapitalize_goodWord {w : List Char} (h : goodWord w = true) :
    pyCapitalize w = capWord w := by
  rcases w with _ | ⟨c, t⟩
  · rfl
  · simp only [goodWord, Bool.and_eq_true, List.head?_cons, Option.any_some,
      List.all_cons] at h
    obtain ⟨⟨_, _⟩, _, ht⟩ := h
    simp only [pyCapitalize, capWord]
    congr 1
    apply list_map_eq_self
    intro x hx
    exact pyToLower_eq_self (not_pyIsUpper_of_lowdig ((List.all_eq_true.mp ht) x hx))

theorem pyCapitalize_capWord {w : List Char} (h : goodWord w = true) :
    pyCapitalize (capWord w) = capWord w := by
  rcases w with _ | ⟨c, t⟩
  · rfl
  · simp only [goodWord, Bool.and_eq_true, List.head?_cons, Option.any_some,
      List.all_cons] at h
    obtain ⟨⟨_, hc⟩, _, ht⟩ := h
    simp only [pyCapitalize, capWord]
    rw [pyToUpper_eq_self (not_pyIsLower_of_pyIsUpper (pyIsUpper_pyToUpper hc))]
    congr 1
    apply list_map_eq_self
    intro x hx
    exact pyToLower_eq_self (not_pyIsUpper_of_lowdig ((List.all_eq_true.mp ht) x hx))

theorem camWords_cons (w : List Char) (ws : List (List Char)) :
    camWords (w :: ws) = capWord w ++ camWords ws := by
  simp [camWords]

/-- The camel form starts with an uppercase letter (or is empty), hence its
head is never lowercase. -/
theorem camWords_head_not_lower {ws : List (List Char)}
    (h : ∀ w ∈ ws, goodWord w = true) :
    (camWords ws).head?.any pyIsLower = false := by
  rcases ws with _ | ⟨w, ws⟩
  · rfl
  · have hw := h w (List.mem_cons_self _ _)
    rcases w with _ | ⟨c, t⟩
    · exact absurd hw (by decide)
    · simp only [goodWord, Bool.and_eq_true, List.head?_cons, Option.any_some] at hw
      rw [camWords_cons]
      simp only [capWord, List.cons_append, List.head?_cons, Option.any_some]
      exact not_pyIsLower_of_pyIsUpper (pyIsUpper_pyToUpper hw.1.2)

theorem camWords_takeWhile_lower {ws : List (List Char)}
    (h : ∀ w ∈ ws, goodWord w = true) :
    (camWords ws).takeWhile pyIsLower = [] := by
  have := camWords_head_not_lower h
  rcases hc : camWords ws with _ | ⟨a, l⟩
  · rfl
  · rw [hc] at this
    simp only [List.head?_cons, Option.any_some] at this
    rw [List.takeWhile_cons_of_neg]
    simp [this]

theorem camWords_dropWhile_lower {ws : List (List Char)}
    (h : ∀ w ∈ ws, goodWord w = true) :
    (camWords ws).dropWhile pyIsLower = camWords ws := by
  have := camWords_head_not_lower h
  rcases hc : camWords ws with _ | ⟨a, l⟩
  · rfl
  · rw [hc] at this
    simp only [List.head?_cons, Option.any_some] at this
    rw [List.dropWhile_cons_of_neg]
    simp [this]

theorem getLastD_mem : ∀ (l : List Char), l ≠ [] → ∀ d, l.getLastD d ∈ l
  | [], hne, _ => absurd rfl hne
  | [a], _, d => by simp [List.getLastD]
  | a :: b :: t, _, d => by
      rw [show (a :: b :: t).getLastD d = (b :: t).getLastD d by simp [List.getLastD]]
      exact List.mem_cons_of_mem _ (getLastD_mem (b :: t) (by simp) d)

theorem dropLast_append_getLastD {l : List Char} (hne : l ≠ []) (d : Char) :
    l.dropLast ++ [l.getLastD d] = l := by
  induction l with
  | nil => exact absurd rfl hne
  | cons a l ih =>
      rcases l with _ | ⟨b, t⟩
      · rfl
      · simp only [List.dropLast_cons₂, List.cons_append]
        rw [show (a :: b :: t).getLastD d = (b :: t).getLastD d by
          simp [List.getLastD]]
        rw [ih (by simp)]

/-! ### Scan lemmas: walking through uppercase-free text -/

/-- The first pass scans through uppercase-free text without matching,
until its last character (which may start a match with what follows). -/
theorem subFirstCap_through : ∀ (t : List Char), t ≠ [] →
    (∀ c ∈ t, pyIsUpper c = false) → ∀ (k : List Char),
    subFirstCap (t ++ k) = t.dropLast ++ subFirstCap (t.getLastD 'a' :: k)
  | [], hne, _, _ => absurd rfl hne
  | [a], _, _, k => by simp [List.getLastD]
  | a :: b :: t2, _, hnoup, k => by
      rw [List.cons_append, List.cons_append, subFirstCap, if_neg]
      · rw [← List.cons_append,
          subFirstCap_through (b :: t2) (by simp)
            (fun c hc => hnoup c (List.mem_cons_of_mem _ hc)) k]
        simp only [List.dropLast_cons₂, List.cons_append]
        rw [show (a :: b :: t2).getLastD 'a' = (b :: t2).getLastD 'a' by
          simp [List.getLastD]]
      · have hb := hnoup b (by simp)
        simp [hb]
termination_by t => t.length

/-- The second pass likewise scans through uppercase-free text without
matching until its last character. -/
theorem subAllCap_through : ∀ (t : List Char), t ≠ [] →
    (∀ c ∈ t, pyIsUpper c = false) → ∀ (k : List Char),
    subAllCap (t ++ k) = t.dropLast ++ subAllCap (t.getLastD 'a' :: k)
  | [], hne, _, _ => absurd rfl hne
  | [a], _, _, k => by simp [List.getLastD]
  | a :: b :: t2, _, hnoup, k => by
      rw [List.cons_append, List.cons_append, subAllCap, if_neg]
      · rw [← List.cons_append,
          subAllCap_through (b :: t2) (by simp)
            (fun c hc => hnoup c (List.mem_cons_of_mem _ hc)) k]
        simp only [List.dropLast_cons₂, List.cons_append]
        rw [show (a :: b :: t2).getLastD 'a' = (b :: t2).getLastD 'a' by
          simp [List.getLastD]]
      · have hb := hnoup b (by simp)
        simp [hb]
termination_by t => t.length

/-- One no-match step of the second pass. -/
theorem subAllCap_cons_nomatch {c : Char} {l : List Char}
    (h : ¬((pyIsLower c || pyIsDigit c) = true ∧ l.head?.any pyIsUpper = true)) :
    subAllCap (c :: l) = c :: subAllCap l := by
  rcases l with _ | ⟨b, t⟩
  · rw [subAllCap, subAllCap]
  · rw [subAllCap, if_neg]
    intro hcon
    exact h ⟨hcon.1, by simp [hcon.2]⟩

/-- The second pass distributes over an underscore separator: no match can
involve the underscore, on either side. -/
theorem subAllCap_dist : ∀ (x y : List Char),
    subAllCap (x ++ '_' :: y) = subAllCap x ++ '_' :: subAllCap y
  | [], y => by
      rw [List.nil_append,
        subAllCap_cons_nomatch (fun hcon => absurd hcon.1 (by decide))]
      rw [show subAllCap ([] : List Char) = [] by rw [subAllCap]]
      rfl
  | [c], y => by
      rw [List.cons_append, List.nil_append,
        subAllCap_cons_nomatch (c := c) (l := '_' :: y) (by
          intro hcon
          have h2 := hcon.2
          simp only [List.head?_cons, Option.any_some] at h2
          exact absurd h2 (by decide)),
        subAllCap_cons_nomatch (c := '_') (l := y)
          (fun hcon => absurd hcon.1 (by decide))]
      rw [show subAllCap [c] = [c] by rw [subAllCap]]
      rfl
  | c1 :: c2 :: x, y => by
      by_cases h : (pyIsLower c1 || pyIsDigit c1) = true ∧ pyIsUpper c2 = true
      · conv_lhs => rw [List.cons_append, List.cons_append, subAllCap]
        conv_rhs => rw [subAllCap]
        rw [if_pos h, if_pos h, subAllCap_dist x y]
        simp
      · conv_lhs => rw [List.cons_append, List.cons_append, subAllCap]
        conv_rhs => rw [subAllCap]
        rw [if_neg h, if_neg h, ← List.cons_append, subAllCap_dist (c2 :: x) y]
        simp
termination_by x => x.length
/-- Pass 1 on the concatenation of capitalized words, with an optional
pending character before them: it matches exactly at the junctions
predicted by `renderFrom`. -/
theorem subFirstCap_camWords : ∀ (ws : List (List Char)),
    (∀ w ∈ ws, goodWord w = true) → ∀ (y : Option Char),
    (∀ c, y = some c → c ≠ '\n') →
    subFirstCap (y.toList ++ camWords ws) = y.toList ++ renderFrom y.isSome ws := by
  intro ws
  induction ws with
  | nil =>
      intro _ y _
      rcases y with _ | c
      · show subFirstCap ([] ++ camWords []) = [] ++ renderFrom false []
        rw [show ([] ++ camWords [] : List Char) = [] from rfl, subFirstCap]
        rfl
      · show subFirstCap ([c] ++ camWords []) = [c] ++ renderFrom true []
        rw [show ([c] ++ camWords []) = [c] from rfl, subFirstCap]
        rfl
  | cons w ws ih =>
      intro hgood y hy
      have hgw := hgood w (List.mem_cons_self _ _)
      have hgood' : ∀ v ∈ ws, goodWord v = true :=
        fun v hv => hgood v (List.mem_cons_of_mem _ hv)
      obtain ⟨c0, t, rfl⟩ : ∃ c0 t, w = c0 :: t := by
        rcases w with _ | ⟨c0, t⟩
        · exact absurd hgw (by decide)
        · exact ⟨c0, t, rfl⟩
      simp only [goodWord, Bool.and_eq_true, List.head?_cons, Option.any_some,
        List.all_cons] at hgw
      obtain ⟨⟨_, hc0⟩, hct, htall⟩ := hgw
      have htall' : ∀ c ∈ t, (pyIsLower c || pyIsDigit c) = true :=
        List.all_eq_true.mp htall
      have hU : pyIsUpper (pyToUpper c0) = true := pyIsUpper_pyToUpper hc0
      -- scanning a residue of lowercase-or-digit characters, then the rest
      -- of the words
      have hres : ∀ (u : List Char), (∀ c ∈ u, (pyIsLower c || pyIsDigit c) = true) →
          subFirstCap (u ++ camWords ws) = u ++ renderFrom (!u.isEmpty) ws := by
        intro u hu
        rcases u with _ | ⟨u0, u'⟩
        · simpa using ih hgood' none (by simp)
        · rw [subFirstCap_through (u0 :: u') (by simp)
            (fun c hc => not_pyIsUpper_of_lowdig (hu c hc)) _]
          have h2 := ih hgood' (some ((u0 :: u').getLastD 'a'))
            (fun c hc => by
              cases hc
              exact lowdig_ne_newline (hu _ (getLastD_mem _ (by simp) _)))
          simp only [Option.toList_some, List.singleton_append,
            Option.isSome_some] at h2
          rw [h2, List.append_cons, dropLast_append_getLastD (by simp)]
          rfl
      -- scanning this word when the junction before it cannot fire
      have hstep : subFirstCap ((pyToUpper c0 :: t) ++ camWords ws) =
          (pyToUpper c0 :: t) ++ renderFrom true ws := by
        rcases t with _ | ⟨t0, t'⟩
        · have h2 := ih hgood' (some (pyToUpper c0))
            (fun c hc => by cases hc; exact upper_ne_newline hU)
          simpa using h2
        · rw [List.cons_append, List.cons_append, subFirstCap, if_neg]
          · rw [← List.cons_append, hres (t0 :: t') htall']
            rfl
          · have ht0 : pyIsUpper t0 = false :=
              not_pyIsUpper_of_lowdig (htall' t0 (List.mem_cons_self _ _))
            simp [ht0]
      rcases y with _ | yc
      · simp only [Option.toList_none, List.nil_append, Option.isSome_none]
        rw [camWords_cons, show capWord (c0 :: t) = pyToUpper c0 :: t from rfl,
          hstep, renderFrom]
        simp [capWord]
      · simp only [Option.toList_some, List.singleton_append, Option.isSome_some]
        rw [camWords_cons, show capWord (c0 :: t) = pyToUpper c0 :: t from rfl]
        by_cases hfire : typeA (c0 :: t) = true
        · -- the junction fires: the word's tail starts with a lowercase letter
          obtain ⟨t0, t', rfl⟩ : ∃ t0 t', t = t0 :: t' := by
            rcases t with _ | ⟨t0, t'⟩
            · exact absurd hfire (by simp [typeA])
            · exact ⟨t0, t', rfl⟩
          have hth : pyIsLower t0 = true := by simpa [typeA] using hfire
          rw [List.cons_append, subFirstCap, if_pos]
          · have htw : ((t0 :: t') ++ camWords ws).takeWhile pyIsLower =
                (t0 :: t').takeWhile pyIsLower := by
              rw [List.takeWhile_append]
              split
              · next hlen =>
                  rw [camWords_takeWhile_lower hgood', List.append_nil]
                  exact ((List.takeWhile_prefix _).eq_of_length hlen).symm
              · rfl
            have hdw : ((t0 :: t') ++ camWords ws).dropWhile pyIsLower =
                (t0 :: t').dropWhile pyIsLower ++ camWords ws := by
              rw [List.dropWhile_append]
              split
              · next hemp =>
                  rw [List.isEmpty_iff] at hemp
                  rw [camWords_dropWhile_lower hgood', hemp, List.nil_append]
              · rfl
            rw [htw, hdw, hres ((t0 :: t').dropWhile pyIsLower)
                (fun c hc => htall' c ((List.dropWhile_suffix pyIsLower).subset hc)),
              ← List.append_assoc, List.takeWhile_append_dropWhile]
            have hx : ((t0 :: t').dropWhile pyIsLower).isEmpty =
                (t0 :: t').all pyIsLower := by
              rcases hall : (t0 :: t').all pyIsLower with _ | _
              · rw [Bool.eq_false_iff]
                intro hcon
                rw [List.isEmpty_iff, List.dropWhile_eq_nil_iff] at hcon
                exact Bool.false_ne_true (hall ▸ List.all_eq_true.mpr hcon)
              · rw [List.isEmpty_iff, List.dropWhile_eq_nil_iff]
                exact List.all_eq_true.mp hall
            rw [hx, renderFrom]
            simp only [hfire]
            simp [capWord]
          · refine ⟨hy yc rfl, hU, ?_⟩
            simp [hth]
        · -- the junction cannot fire: no match at the pending character
          have hnm : ((t ++ camWords ws).head?.any pyIsLower) = false := by
            rcases t with _ | ⟨t0, t'⟩
            · simpa using camWords_head_not_lower hgood'
            · have ht0 : pyIsLower t0 = false := by
                by_contra hcon
                rw [Bool.not_eq_false] at hcon
                exact hfire (by simp [typeA, hcon])
              simp [ht0]
          rw [List.cons_append, subFirstCap, if_neg]
          · rw [← List.cons_append, hstep, renderFrom]
            have hf : typeA (c0 :: t) = false := by
              rw [Bool.eq_false_iff]
              exact hfire
            simp [hf, capWord]
          · intro hcon
            rw [hnm] at hcon
            exact Bool.false_ne_true hcon.2.2

theorem chainPairs_tail {w : List Char} {ws : List (List Char)}
    (h : chainPairs (w :: ws) = true) : chainPairs ws = true := by
  rcases ws with _ | ⟨w2, ws⟩
  · rfl
  · rw [chainPairs, Bool.and_eq_true] at h
    exact h.2

theorem chainPairs_head {w w2 : List Char} {ws : List (List Char)}
    (h : chainPairs (w :: w2 :: ws) = true) : goodPair w w2 = true := by
  rw [chainPairs, Bool.and_eq_true] at h
  exact h.1

/-- If the first word's tail is empty (one-letter word), a re-detectable
chain forces the following word, if any, to be of type A. -/
theorem chain_first_single {w : List Char} {ws : List (List Char)}
    (hw : w.tail = []) (hchain : chainPairs (w :: ws) = true) (hne : w ≠ []) :
    ws = [] ∨ typeA (ws.headD []) = true := by
  rcases ws with _ | ⟨w2, ws⟩
  · exact Or.inl rfl
  · right
    have hp := chainPairs_head hchain
    rw [goodPair, Bool.or_eq_true] at hp
    rcases hp with hp | hp
    · exfalso
      rcases w with _ | ⟨a, t⟩
      · exact hne rfl
      · simp only [List.tail_cons] at hw
        subst hw
        simp at hp
    · simpa using hp

/-- Pass 2 on the output of pass 1, after a residue `t` of word characters:
every junction that pass 1 left bare is re-detected, so every junction ends
up with exactly one underscore. -/
theorem subAllCap_renderFrom : ∀ (ws : List (List Char)) (t : List Char)
    (avail : Bool),
    (∀ w ∈ ws, goodWord w = true) → chainPairs ws = true →
    (∀ c ∈ t, (pyIsLower c || pyIsDigit c) = true) →
    (avail = false → t ≠ []) →
    (t = [] → ws = [] ∨ typeA (ws.headD []) = true) →
    subAllCap (t ++ renderFrom avail ws) =
      t ++ (ws.map (fun w => '_' :: capWord w)).flatten := by
  intro ws
  induction ws with
  | nil =>
      intro t avail _ _ ht _ _
      rw [renderFrom, List.append_nil, List.map_nil, List.flatten_nil,
        List.append_nil]
      exact subAllCap_id t (fun c hc => not_pyIsUpper_of_lowdig (ht c hc))
  | cons w ws ih =>
      intro t avail hgood hchain ht havail hempty
      have hgw := hgood w (List.mem_cons_self _ _)
      have hgood' : ∀ v ∈ ws, goodWord v = true :=
        fun v hv => hgood v (List.mem_cons_of_mem _ hv)
      obtain ⟨c0, tw, rfl⟩ : ∃ c0 tw, w = c0 :: tw := by
        rcases w with _ | ⟨c0, tw⟩
        · exact absurd hgw (by decide)
        · exact ⟨c0, tw, rfl⟩
      simp only [goodWord, Bool.and_eq_true, List.head?_cons, Option.any_some,
        List.all_cons] at hgw
      obtain ⟨⟨_, hc0⟩, hct, htwall⟩ := hgw
      have htwall' : ∀ c ∈ tw, (pyIsLower c || pyIsDigit c) = true :=
        List.all_eq_true.mp htwall
      have hU : pyIsUpper (pyToUpper c0) = true := pyIsUpper_pyToUpper hc0
      have hUno : (pyIsLower (pyToUpper c0) || pyIsDigit (pyToUpper c0)) = false :=
        not_lowdig_of_pyIsUpper hU
      by_cases hfire : (avail && typeA (c0 :: tw)) = true
      · -- pass 1 already placed the underscore at this junction
        have htA : typeA (c0 :: tw) = true := (Bool.and_eq_true_iff.mp hfire).2
        obtain ⟨t0, t1, rfl⟩ : ∃ t0 t1, tw = t0 :: t1 := by
          rcases tw with _ | ⟨t0, t1⟩
          · exact absurd htA (by simp [typeA])
          · exact ⟨t0, t1, rfl⟩
        rw [renderFrom, if_pos hfire]
        simp only [List.singleton_append]
        rw [List.cons_append]
        rw [subAllCap_dist t _,
          subAllCap_id t (fun c hc => not_pyIsUpper_of_lowdig (ht c hc))]
        rw [show capWord (c0 :: t0 :: t1) ++
              renderFrom (!(avail && typeA (c0 :: t0 :: t1) &&
                (c0 :: t0 :: t1).tail.all pyIsLower)) ws =
            pyToUpper c0 :: ((t0 :: t1) ++
              renderFrom (!(avail && typeA (c0 :: t0 :: t1) &&
                (c0 :: t0 :: t1).tail.all pyIsLower)) ws) from rfl]
        rw [subAllCap_cons_nomatch (by
          intro hcon
          rw [hUno] at hcon
          exact Bool.false_ne_true hcon.1)]
        rw [ih (t0 :: t1)
            (!(avail && typeA (c0 :: t0 :: t1) &&
              (c0 :: t0 :: t1).tail.all pyIsLower))
            hgood' (chainPairs_tail hchain) htwall'
            (fun _ => by simp)
            (fun hcon => absurd hcon (by simp))]
        simp [capWord]
      · -- bare junction: pass 2 must re-detect it from the residue
        have hfireF : (avail && typeA (c0 :: tw)) = false :=
          Bool.eq_false_iff.mpr hfire
        have htne : t ≠ [] := by
          intro hteq
          rcases havf : avail with _ | _
          · exact (havail havf) hteq
          · rcases hempty hteq with hws | hA
            · exact List.cons_ne_nil _ _ hws
            · rw [havf, Bool.true_and] at hfireF
              simp only [List.headD_cons] at hA
              exact Bool.false_ne_true (hfireF ▸ hA)
        have hf2 : (!(avail && typeA (c0 :: tw) && (c0 :: tw).tail.all pyIsLower))
            = true := by
          rw [hfireF]
          rfl
        rw [renderFrom, if_neg (by simp [hfireF]), hf2, List.nil_append]
        rw [subAllCap_through t htne
          (fun c hc => not_pyIsUpper_of_lowdig (ht c hc)) _]
        rw [show t.getLastD 'a' :: (capWord (c0 :: tw) ++ renderFrom true ws) =
          t.getLastD 'a' :: pyToUpper c0 :: (tw ++ renderFrom true ws) from rfl]
        rw [subAllCap, if_pos ⟨ht _ (getLastD_mem t htne 'a'), hU⟩]
        rw [ih tw true hgood' (chainPairs_tail hchain) htwall'
            (fun hcon => absurd hcon (by simp))
            (fun htweq => chain_first_single
              (by simp [htweq]) hchain (by simp))]
        rw [List.append_cons, dropLast_append_getLastD htne]
        simp [capWord]

/-- Pass 2 applied to the whole pass-1 output: the camel form regains an
underscore at every junction. -/
theorem subAllCap_renderFrom_top (w : List Char) (ws : List (List Char))
    (hgood : ∀ v ∈ w :: ws, goodWord v = true)
    (hchain : chainPairs (w :: ws) = true) :
    subAllCap (renderFrom false (w :: ws)) =
      capWord w ++ (ws.map (fun v => '_' :: capWord v)).flatten := by
  have hgw := hgood w (List.mem_cons_self _ _)
  have hgood' : ∀ v ∈ ws, goodWord v = true :=
    fun v hv => hgood v (List.mem_cons_of_mem _ hv)
  obtain ⟨c0, tw, rfl⟩ : ∃ c0 tw, w = c0 :: tw := by
    rcases w with _ | ⟨c0, tw⟩
    · exact absurd hgw (by decide)
    · exact ⟨c0, tw, rfl⟩
  simp only [goodWord, Bool.and_eq_true, List.head?_cons, Option.any_some,
    List.all_cons] at hgw
  obtain ⟨⟨_, hc0⟩, hct, htwall⟩ := hgw
  have htwall' : ∀ c ∈ tw, (pyIsLower c || pyIsDigit c) = true :=
    List.all_eq_true.mp htwall
  have hU : pyIsUpper (pyToUpper c0) = true := pyIsUpper_pyToUpper hc0
  rw [renderFrom, if_neg (by simp), show
    (!(false && typeA (c0 :: tw) && (c0 :: tw).tail.all pyIsLower)) = true
    by simp, List.nil_append]
  rw [show capWord (c0 :: tw) ++ renderFrom true ws =
    pyToUpper c0 :: (tw ++ renderFrom true ws) from rfl]
  rw [subAllCap_cons_nomatch (by
    intro hcon
    rw [not_lowdig_of_pyIsUpper hU] at hcon
    exact Bool.false_ne_true hcon.1)]
  rw [subAllCap_renderFrom ws tw true hgood' (chainPairs_tail hchain) htwall'
    (fun hcon => absurd hcon (by simp))
    (fun htweq => chain_first_single (by simp [htweq]) hchain (by simp))]
  simp [capWord]

/-! ### Splitting at underscores and joining back -/

theorem lowdig_ne_underscore {c : Char} (h : (pyIsLower c || pyIsDigit c) = true) :
    c ≠ '_' := by
  intro hc
  subst hc
  exact absurd h (by decide)

theorem upper_ne_underscore {c : Char} (h : pyIsUpper c = true) : c ≠ '_' := by
  intro hc
  subst hc
  exact absurd h (by decide)

theorem goodWord_no_underscore {w : List Char} (h : goodWord w = true) :
    ∀ c ∈ w, c ≠ '_' := by
  intro c hc
  simp only [goodWord, Bool.and_eq_true] at h
  exact lowdig_ne_underscore (List.all_eq_true.mp h.2 c hc)

theorem capWord_no_underscore {w : List Char} (h : goodWord w = true) :
    ∀ c ∈ capWord w, c ≠ '_' := by
  rcases w with _ | ⟨c0, t⟩
  · intro c hc
    cases hc
  · simp only [goodWord, Bool.and_eq_true, List.head?_cons, Option.any_some,
      List.all_cons] at h
    obtain ⟨⟨_, hc0⟩, _, htall⟩ := h
    intro c hc
    simp only [capWord] at hc
    rcases List.mem_cons.mp hc with rfl | hc
    · exact upper_ne_underscore (pyIsUpper_pyToUpper hc0)
    · exact lowdig_ne_underscore (List.all_eq_true.mp htall c hc)

theorem pySplitUnderscore_cons (c : Char) (rest : List Char) :
    pySplitUnderscore (c :: rest) =
      if c = '_' then [] :: pySplitUnderscore rest
      else
        match pySplitUnderscore rest with
        | [] => [[c]]
        | w :: ws => (c :: w) :: ws := rfl

theorem pySplitUnderscore_ne_nil : ∀ (s : List Char), pySplitUnderscore s ≠ []
  | [] => by simp [pySplitUnderscore]
  | c :: rest => by
      rw [pySplitUnderscore_cons]
      split
      · simp
      · rcases pySplitUnderscore rest with _ | ⟨w, ws⟩ <;> simp

theorem joinU_cons_cons (w w2 : List Char) (ws : List (List Char)) :
    joinU (w :: w2 :: ws) = w ++ '_' :: joinU (w2 :: ws) := rfl

/-- Joining the pieces of a split recovers the original character list. -/
theorem joinU_split : ∀ (s : List Char), joinU (pySplitUnderscore s) = s
  | [] => rfl
  | c :: rest => by
      rw [pySplitUnderscore_cons]
      by_cases hc : c = '_'
      · rw [if_pos hc]
        rcases hsp : pySplitUnderscore rest with _ | ⟨w, ws⟩
        · exact absurd hsp (pySplitUnderscore_ne_nil rest)
        · have hjr := joinU_split rest
          rw [hsp] at hjr
          rw [joinU_cons_cons, hjr, hc]
          rfl
      · rw [if_neg hc]
        rcases hsp : pySplitUnderscore rest with _ | ⟨w, ws⟩
        · exact absurd hsp (pySplitUnderscore_ne_nil rest)
        · have hjr := joinU_split rest
          rw [hsp] at hjr
          show joinU ((c :: w) :: ws) = c :: rest
          rcases ws with _ | ⟨w2, ws2⟩
          · show c :: w = c :: rest
            rw [show joinU [w] = w from rfl] at hjr
            rw [hjr]
          · rw [joinU_cons_cons, ← hjr, joinU_cons_cons]
            rfl

theorem split_no_underscore : ∀ (l : List Char), (∀ c ∈ l, c ≠ '_') →
    pySplitUnderscore l = [l]
  | [], _ => rfl
  | c :: rest, h => by
      rw [pySplitUnderscore_cons, if_neg (h c (List.mem_cons_self _ _)),
        split_no_underscore rest (fun x hx => h x (List.mem_cons_of_mem _ hx))]

theorem split_append_word : ∀ (w z : List Char), (∀ c ∈ w, c ≠ '_') →
    pySplitUnderscore (w ++ '_' :: z) = w :: pySplitUnderscore z
  | [], z, _ => by
      rw [List.nil_append, pySplitUnderscore_cons, if_pos rfl]
  | c :: w, z, h => by
      rw [List.cons_append, pySplitUnderscore_cons,
        if_neg (h c (List.mem_cons_self _ _)),
        split_append_word w z (fun x hx => h x (List.mem_cons_of_mem _ hx))]

/-- Splitting the joined form recovers the word list when no word contains
an underscore. -/
theorem split_joinU : ∀ (ws : List (List Char)), ws ≠ [] →
    (∀ w ∈ ws, ∀ c ∈ w, c ≠ '_') → pySplitUnderscore (joinU ws) = ws
  | [], hne, _ => absurd rfl hne
  | [w], _, h => by
      rw [show joinU [w] = w from rfl,
        split_no_underscore w (h w (List.mem_cons_self _ _))]
  | w :: w2 :: ws, _, h => by
      rw [joinU_cons_cons, split_append_word w _ (h w (List.mem_cons_self _ _)),
        split_joinU (w2 :: ws) (by simp) (fun v hv => h v (List.mem_cons_of_mem _ hv))]

theorem joinU_flat : ∀ (w : List Char) (ws : List (List Char)),
    joinU (w :: ws) = w ++ (ws.map (fun v => '_' :: v)).flatten
  | w, [] => by
      rw [show joinU [w] = w from rfl]
      simp
  | w, w2 :: ws => by
      rw [joinU_cons_cons, joinU_flat w2 ws]
      simp

/-! ### The snake-to-camel-to-snake round trip (C1) -/

/-- Unfolding of `snake_to_camel` on an explicit first character. -/
theorem snake_to_camel_cons (c : Char) (rest : List Char) :
    snake_to_camel (String.mk (c :: rest)) =
      (if (pySplitUnderscore (pyToUpper c :: rest)).length = 1 ∨
          ((pySplitUnderscore (pyToUpper c :: rest)).length = 2 ∧ c = '_') then
        String.mk (pyToUpper c :: rest)
      else
        String.mk (if c = '_'
          then '_' :: ((pySplitUnderscore (pyToUpper c :: rest)).map pyCapitalize).flatten
          else ((pySplitUnderscore (pyToUpper c :: rest)).map pyCapitalize).flatten)) :=
  rfl

/-- A character list containing a lowercase letter or digit is not all
uppercase-or-underscore, so the constant exemption does not apply to it. -/
theorem all_upper_underscore_false {l : List Char} {c : Char} (hc : c ∈ l)
    (hlc : (pyIsLower c || pyIsDigit c) = true) :
    l.all (fun c => pyIsUpper c || c == '_') = false := by
  rcases hall : l.all (fun c => pyIsUpper c || c == '_') with _ | _
  · rfl
  · exfalso
    have h := List.all_eq_true.mp hall c hc
    simp only [Bool.or_eq_true, beq_iff_eq] at h
    rcases h with h | h
    · rw [not_pyIsUpper_of_lowdig hlc] at h
      exact Bool.false_ne_true h
    · exact lowdig_ne_underscore hlc h

/-- The camel form of a good word chain is never caught by the constant
exemption of `camel_to_snake`. -/
theorem camWords_exempt_false {w : List Char} {ws : List (List Char)}
    (hgood : ∀ v ∈ w :: ws, goodWord v = true)
    (hchain : chainPairs (w :: ws) = true)
    (hlong : ws = [] → 2 ≤ w.length) :
    (camWords (w :: ws)).all (fun c => pyIsUpper c || c == '_') = false := by
  obtain ⟨c, hc, hlc⟩ :
      ∃ c, c ∈ camWords (w :: ws) ∧ (pyIsLower c || pyIsDigit c) = true := by
    have hlen2 : 2 ≤ w.length →
        ∃ c, c ∈ camWords (w :: ws) ∧ (pyIsLower c || pyIsDigit c) = true := by
      intro h2
      have hgw := hgood w (List.mem_cons_self _ _)
      obtain ⟨c0, t1, t2, rfl⟩ : ∃ c0 t1 t2, w = c0 :: t1 :: t2 := by
        rcases w with _ | ⟨c0, tt⟩
        · exact absurd hgw (by decide)
        · rcases tt with _ | ⟨t1, t2⟩
          · rw [List.length_cons, List.length_nil] at h2
            omega
          · exact ⟨c0, t1, t2, rfl⟩
      refine ⟨t1, ?_, ?_⟩
      · rw [camWords_cons]
        apply List.mem_append_left
        simp [capWord]
      · have hparts := hgw
        simp only [goodWord, Bool.and_eq_true, List.all_cons] at hparts
        exact hparts.2.2.1
    rcases ws with _ | ⟨w2, ws2⟩
    · exact hlen2 (hlong rfl)
    · have hp := chainPairs_head hchain
      rw [goodPair, Bool.or_eq_true] at hp
      rcases hp with hp | hp
      · exact hlen2 (of_decide_eq_true hp)
      · rw [typeA] at hp
        obtain ⟨a, b, t2, rfl⟩ : ∃ a b t2, w2 = a :: b :: t2 := by
          rcases w2 with _ | ⟨a, tt⟩
          · simp at hp
          · rcases tt with _ | ⟨b, t2⟩
            · simp at hp
            · exact ⟨a, b, t2, rfl⟩
        simp only [List.tail_cons, List.head?_cons, Option.any_some] at hp
        refine ⟨b, ?_, by simp [hp]⟩
        rw [camWords_cons]
        apply List.mem_append_right
        rw [camWords_cons]
        apply List.mem_append_left
        simp [capWord]
  exact all_upper_underscore_false hc hlc

/-- `camel_to_snake` maps the camel form of a good word chain back to the
underscore-joined form. -/
theorem camel_to_snake_camWords (w : List Char) (ws : List (List Char))
    (hgood : ∀ v ∈ w :: ws, goodWord v = true)
    (hchain : chainPairs (w :: ws) = true)
    (hlong : ws = [] → 2 ≤ w.length) :
    camel_to_snake (String.mk (camWords (w :: ws))) = String.mk (joinU (w :: ws)) := by
  have hex := camWords_exempt_false hgood hchain hlong
  rw [camel_to_snake, if_neg (by
    show ¬(camWords (w :: ws)).all (fun c => pyIsUpper c || c == '_') = true
    rw [hex]
    exact Bool.false_ne_true)]
  show String.mk ((subAllCap (subFirstCap (camWords (w :: ws)))).map pyToLower) =
    String.mk (joinU (w :: ws))
  have h1 := subFirstCap_camWords (w :: ws) hgood none
    (fun c hc => Option.noConfusion hc)
  simp only [Option.toList_none, List.nil_append, Option.isSome_none] at h1
  rw [h1, subAllCap_renderFrom_top w ws hgood hchain, List.map_append,
    pyToLower_capWord (hgood w (List.mem_cons_self _ _)), List.map_flatten,
    List.map_map]
  have hcomp : ∀ v ∈ ws, (List.map pyToLower ∘ fun u => '_' :: capWord u) v =
      (fun u : List Char => '_' :: u) v := by
    intro v hv
    show List.map pyToLower ('_' :: capWord v) = '_' :: v
    rw [List.map_cons, pyToLower_capWord (hgood v (List.mem_cons_of_mem _ hv)),
      show pyToLower '_' = '_' from by decide]
  rw [List.map_congr_left hcomp, ← joinU_flat]

/-- Core of the round trip: on the underscore-join of a good word list,
`snake_to_camel` followed by `camel_to_snake` is the identity. -/
theorem round_core_words (ws : List (List Char)) (h : goodSnakeWords ws = true) :
    camel_to_snake (snake_to_camel (String.mk (joinU ws))) = String.mk (joinU ws) := by
  rcases ws with _ | ⟨w, rest⟩
  · exact absurd h (by decide)
  rcases rest with _ | ⟨w2, rest2⟩
  · -- a lone word of length at least two
    rw [goodSnakeWords, Bool.and_eq_true] at h
    have hgw : goodWord w = true := h.1
    have h2 : 2 ≤ w.length := of_decide_eq_true h.2
    have hgood : ∀ v ∈ [w], goodWord v = true := by
      intro v hv
      rw [List.mem_singleton] at hv
      subst hv
      exact hgw
    obtain ⟨c0, t, rfl⟩ : ∃ c0 t, w = c0 :: t := by
      rcases w with _ | ⟨c0, t⟩
      · exact absurd hgw (by decide)
      · exact ⟨c0, t, rfl⟩
    rw [show joinU [c0 :: t] = c0 :: t from rfl, snake_to_camel_cons]
    have hsplit : pySplitUnderscore (pyToUpper c0 :: t) = [pyToUpper c0 :: t] := by
      have hnu := capWord_no_underscore hgw
      rw [show capWord (c0 :: t) = pyToUpper c0 :: t from rfl] at hnu
      exact split_no_underscore _ hnu
    simp only [hsplit]
    rw [if_pos (Or.inl (by simp))]
    have hcw : camWords [c0 :: t] = pyToUpper c0 :: t := by
      simp [camWords, capWord]
    rw [← hcw]
    exact camel_to_snake_camWords (c0 :: t) [] hgood rfl (fun _ => h2)
  · -- at least two words
    rw [goodSnakeWords, Bool.and_eq_true] at h
    have hgood := List.all_eq_true.mp h.1
    have hchain := h.2
    have hgw := hgood w (List.mem_cons_self _ _)
    obtain ⟨c0, t, rfl⟩ : ∃ c0 t, w = c0 :: t := by
      rcases w with _ | ⟨c0, t⟩
      · exact absurd hgw (by decide)
      · exact ⟨c0, t, rfl⟩
    have hparts := hgw
    simp only [goodWord, Bool.and_eq_true, List.head?_cons, Option.any_some] at hparts
    have hc0 : pyIsLower c0 = true := hparts.1.2
    rw [joinU_cons_cons, List.cons_append, snake_to_camel_cons]
    have hNeq : pyToUpper c0 :: (t ++ '_' :: joinU (w2 :: rest2)) =
        joinU (capWord (c0 :: t) :: w2 :: rest2) := by
      rw [joinU_cons_cons, show capWord (c0 :: t) = pyToUpper c0 :: t from rfl,
        List.cons_append]
    have hsplit : pySplitUnderscore (pyToUpper c0 :: (t ++ '_' :: joinU (w2 :: rest2))) =
        capWord (c0 :: t) :: w2 :: rest2 := by
      rw [hNeq]
      refine split_joinU _ (by simp) ?_
      intro v hv
      rcases List.mem_cons.mp hv with rfl | hv2
      · exact capWord_no_underscore hgw
      · exact goodWord_no_underscore (hgood v (List.mem_cons_of_mem _ hv2))
    simp only [hsplit]
    have hcond : ¬((capWord (c0 :: t) :: w2 :: rest2).length = 1 ∨
        ((capWord (c0 :: t) :: w2 :: rest2).length = 2 ∧ c0 = '_')) := by
      rintro (h1 | ⟨-, h3⟩)
      · rw [List.length_cons, List.length_cons] at h1
        omega
      · exact lowdig_ne_underscore (by simp [hc0]) h3
    rw [if_neg hcond, if_neg (lowdig_ne_underscore (by simp [hc0]) : ¬(c0 = '_'))]
    have hmc : ∀ v ∈ w2 :: rest2, pyCapitalize v = capWord v :=
      fun v hv => pyCapitalize_goodWord (hgood v (List.mem_cons_of_mem _ hv))
    have hmapc : (capWord (c0 :: t) :: w2 :: rest2).map pyCapitalize =
        capWord (c0 :: t) :: (w2 :: rest2).map capWord := by
      rw [List.map_cons, pyCapitalize_capWord hgw, List.map_congr_left hmc]
    rw [hmapc]
    have hcw2 : (capWord (c0 :: t) :: (w2 :: rest2).map capWord).flatten =
        camWords ((c0 :: t) :: w2 :: rest2) := by
      simp [camWords]
    rw [hcw2]
    exact camel_to_snake_camWords (c0 :: t) (w2 :: rest2) hgood hchain
      (fun hcon => absurd hcon (by simp))

/-- C1 (counterexample to the claim as stated): the identifier `"a"` has no
leading or trailing underscore and contains no digit at all (so no
digit-adjacent boundary ambiguity), yet the round trip fails on it:
`camel_to_snake "a" = "a"`, `snake_to_camel "a" = "A"`, and `"A"` is kept
unchanged by the all-caps constant exemption of `camel_to_snake`, so the
left side is `"A"`, not `"a"`. -/
theorem camel_snake_round_trip_counterexample :
    "a".data.head? ≠ some '_' ∧ "a".data.getLast? ≠ some '_' ∧
    "a".data.all (fun c => !pyIsDigit c) = true ∧
    camel_to_snake (snake_to_camel (camel_to_snake "a")) ≠ camel_to_snake "a" := by
  have h1 : camel_to_snake "a" = "a" := by
    simp +decide [camel_to_snake, subFirstCap, subAllCap]
  refine ⟨by decide, by decide, by decide, ?_⟩
  rw [h1, show snake_to_camel "a" = "A" from rfl,
    show camel_to_snake "A" = "A" from rfl]
  decide

/-- C1 (amended): `camel_to_snake (snake_to_camel (camel_to_snake n)) =
camel_to_snake n` holds whenever the underscore-split of `camel_to_snake n`
is a nonempty list of words in which every word is nonempty, starts with a
lowercase letter and consists only of lowercase letters and digits, every
adjacent pair `(w, w2)` has `2 ≤ w.length` or a lowercase second character
in `w2`, and a lone word has length at least two.  The claim's stated
precondition (no leading/trailing underscores, no digit-adjacent boundary
ambiguity) is weaker and insufficient: see the counterexample `"a"`. -/
theorem camel_snake_round_trip (n : String)
    (h : goodSnakeWords (pySplitUnderscore (camel_to_snake n).data) = true) :
    camel_to_snake (snake_to_camel (camel_to_snake n)) = camel_to_snake n := by
  have hc := round_core_words (pySplitUnderscore (camel_to_snake n).data) h
  rw [joinU_split] at hc
  exact hc

/-- C1 witness: the round trip at the concrete identifier `"myVarName"`. -/
theorem camel_snake_round_trip_witness :
    camel_to_snake (snake_to_camel (camel_to_snake "myVarName")) =
      camel_to_snake "myVarName" :=
  camel_snake_round_trip "myVarName" (by
    rw [show camel_to_snake "myVarName" = "my_var_name" from by
      simp +decide [camel_to_snake, subFirstCap, subAllCap]]
    decide)

end CamelSnakePep8
